import Mathlib

/-!
Verification of the join/scope-compilation core (`src/core/src/compiling/scope.rs`).

The embedding below translates the Rust source into Lean.  Types owned by
external collaborators (schema, links, chains, SELECT structures, the
`build_cte_select` path-conversion routine, and the `JoinTree`) are not part
of the visible source; where needed they are modelled from the specification
and marked `Modelled from the spec:` in their doc comments.

Conventions of the embedding:
* `HashSet<String>` is modelled as a `List String` used only through
  membership tests and insertion (`contains` / `insert`), exactly the two
  operations the source performs on it, so iteration order is irrelevant.
* `usize` is modelled as `Nat` (the saturating arithmetic on the indentation
  level is `Nat.succ` / truncated `Nat` subtraction).
* A Rust `unwrap` on a missing key is modelled by the `panicked` outcome of
  `RunResult`; a provably-infinite `loop` is modelled by `diverged` (resp. a
  `none` result of the alias-generation closure, together with a fuel-indexed
  version of the loop relating the two).
-/

/-- A resolved (table, column) pair, as produced by the external resolver.
Modelled from the spec: a link endpoint is a `(table, column)` pair. -/
structure Reference where
  table_id : Nat
  column_id : Nat
deriving DecidableEq, Repr

/-- Modelled from the spec: a to-one relationship edge between two
(table, column) pairs.  Its merge key in the Join Tree is the whole link. -/
structure LinkToOne where
  start : Reference
  stop : Reference
deriving DecidableEq, Repr

/-- Modelled from the spec: a to-many relationship edge (`FilteredLink`);
only its starting reference (`get_start` of the first link) is consumed by
this core, the optional row filter is opaque here. -/
structure FilteredLink where
  start : Reference
  stop : Reference
deriving DecidableEq, Repr

/-- Modelled from the spec: an ordered, non-empty sequence of links.
`get_first_link` is `first`. -/
structure Chain (α : Type) where
  first : α
  rest : List α
deriving DecidableEq, Repr

/-- All links of a chain, in order. -/
def Chain.links {α : Type} (c : Chain α) : List α :=
  c.first :: c.rest

/-- Modelled from the spec: a column record owned by a table. -/
structure Column where
  id : Nat
  name : String
deriving DecidableEq, Repr

/-- Modelled from the spec: a table record; `columns` maps column identities
to column records (association list standing in for the source's map). -/
structure Table where
  id : Nat
  name : String
  columns : List (Nat × Column)
deriving DecidableEq, Repr

/-- Modelled from the spec: the schema maps table identities to tables and
names to table identities, and derives the deterministic "ideal alias" for a
to-one link (`get_ideal_alias_for_link_to_one`), kept abstract as a function
field. -/
structure Schema where
  tables : List (Nat × Table)
  table_lookup : List (String × Nat)
  ideal_alias : LinkToOne → String

/-- Modelled from the spec: the external identifier-resolution policy
(`Options::resolve_identifier`), kept abstract as a function field. -/
structure Options where
  resolve_identifier : List (String × Nat) → String → Option Nat

/-- Modelled from the spec: one post-processing composition operation from
the expression layer (`Composition` in the source, renamed to avoid a
Mathlib name clash); opaque to this core, it is only passed through. -/
structure CompositionOp where
  id : Nat
deriving DecidableEq, Repr

/-- Modelled from the spec: the SELECT structure produced by path
conversion; opaque to this core. -/
structure SqlSelect where
  id : Nat
deriving DecidableEq, Repr

/-- Modelled from the spec: the purpose tag of a CTE. -/
structure CtePurpose where
  id : Nat
deriving DecidableEq, Repr

/-- Modelled from the spec: a CTE descriptor — a SELECT, the alias unique in
the owning Scope, the purpose tag, and the join-back column name. -/
structure Cte where
  select : SqlSelect
  alia : String
  purpose : CtePurpose
  join_column_name : String
deriving DecidableEq, Repr

/-- Modelled from the spec: the value produced by the path-conversion
collaborator (`ValueViaCte`): a SELECT, the alias of its output column and
the leftover compositions. -/
structure ValueViaCte where
  select : SqlSelect
  value_alias : String
  compositions : List CompositionOp
deriving DecidableEq, Repr

/-- The literal kind consumed by the claims: a `(table alias, column)`
reference.  Modelled from the spec (the syntax tree is external). -/
inductive Literal where
  | TableColumnReference (tableAlias : String) (columnAlias : String)
deriving DecidableEq, Repr

/-- Modelled from the spec: the value expression returned to the expression
layer — a base literal plus the compositions still to be applied. -/
structure SimpleExpression where
  base : Literal
  compositions : List CompositionOp
deriving DecidableEq, Repr

/-- Modelled from the spec: the Join Tree.  A node holds the alias assigned
to it (for the root: the base table's own name), its children keyed by the
link that produced them, and an optionally attached CTE descriptor. -/
inductive JoinTree where
  | node (alia : String) (dependents : List (LinkToOne × JoinTree)) (cte : Option Cte)
deriving Repr

/-- `JoinTree::new(name)`: a fresh tree rooted at the base table. -/
def JoinTree.new (name : String) : JoinTree :=
  .node name [] none

/-- The alias stored at a tree's root node. -/
def JoinTree.rootAlias : JoinTree → String
  | .node a _ _ => a

/-- Outcome type of an embedded operation: a value, a user-level error, a
Rust panic (`unwrap` on a missing key) or an infinite loop. -/
inductive RunResult (α : Type) where
  | ok (a : α)
  | err (e : String)
  | panicked
  | diverged
deriving Repr

/-- The `Scope` struct from the source.  The two borrowed context fields
(`options`, `schema`) are threaded as explicit parameters of the operations
instead of being stored, which is the only representation of `&'a` data in a
pure embedding; the mutable state is carried here. -/
structure Scope where
  base_table : Table
  indentation_level : Nat
  join_tree : JoinTree
  aliases : List String
  cte_naming_index : Nat

/-- Modelled from the spec: `CTE_ALIAS_PREFIX` from `constants.rs` (spec:
prefix `"cte"`, producing `cte0`, `cte1`, ...). -/
def CTE_ALIAS_PREFIX : String := "cte"

/-- The candidate alias that `Scope::get_alias` probes at `suffix_index = k`:
the ideal alias itself for `k = 0`, otherwise `format!("{}_{}", ideal, k)`. -/
def aliasCandidate (ideal : String) (k : Nat) : String :=
  if k = 0 then ideal else ideal ++ "_" ++ Nat.repr k

/-- The candidate alias that `Scope::get_cte_alias` probes at counter value
`k`: `format!("{}{}", CTE_ALIAS_PREFIX, k)`. -/
def cteAliasCandidate (k : Nat) : String :=
  CTE_ALIAS_PREFIX ++ Nat.repr k

/-- The length of the longest string in a list (0 for the empty list); used
only to justify that the probe loops below never exhaust their fuel. -/
def maxStrLen : List String → Nat
  | [] => 0
  | s :: rest => max s.length (maxStrLen rest)

/-- The common shape of the two terminating probe loops of the source
(`Scope::get_alias`, lines 126-140, and `Scope::get_cte_alias`, lines
174-183): starting at index `k`, try `cand k`, `cand (k+1)`, ... against the
used-alias set until an unused candidate is found, then insert and return it
together with the successful index.  The source loops are unbounded; the
`fuel` argument only bounds the recursion and is chosen large enough that it
is never exhausted (`probeLoop_isSome`). -/
def probeLoop (used : List String) (cand : Nat → String) : Nat → Nat → Option (Nat × String × List String)
  | _, 0 => none
  | k, fuel + 1 =>
    if cand k ∈ used then probeLoop used cand (k + 1) fuel
    else some (k, cand k, cand k :: used)

/-- Fuel that provably suffices for both probe loops: some index `j` with
`start ≤ j < start + probeFuel used` always has an unused candidate, because
the decimal representation of a large enough index is longer than every
string in `used`. -/
def probeFuel (used : List String) : Nat :=
  10 ^ (maxStrLen used + 1) + 1

/-- `Scope::get_alias` (source lines 126-140): return `ideal` itself if
unused, otherwise `ideal_1`, `ideal_2`, ... in increasing order until an
unused suffix is found; record the result as used.  The `none` fallback is
unreachable (`get_alias_probe_isSome`) and mirrors nothing in the source:
the source loop simply runs until it finds a free candidate, which the
adequacy theorem shows always happens within `probeFuel`. -/
def Scope.get_alias (s : Scope) (ideal_alias : String) : String × Scope :=
  match probeLoop s.aliases (aliasCandidate ideal_alias) 0 (probeFuel s.aliases) with
  | some (_, a, used) => (a, { s with aliases := used })
  | none => (ideal_alias, s)

/-- `Scope::get_cte_alias` (source lines 174-183): probe
`CTE_ALIAS_PREFIX ++ repr i` for `i = cte_naming_index, ...`, advancing the
counter on every probe regardless of collision, and record the successful
alias in the same used-alias set as table aliases.  The counter ends at one
past the successful index.  The `none` fallback is unreachable
(`get_cte_alias_probe_isSome`). -/
def Scope.get_cte_alias (s : Scope) : String × Scope :=
  match probeLoop s.aliases cteAliasCandidate s.cte_naming_index (probeFuel s.aliases) with
  | some (j, a, used) => (a, { s with aliases := used, cte_naming_index := j + 1 })
  | none => (cteAliasCandidate s.cte_naming_index, s)

/-- One pass of the probe loop inside the `get_alias` closure of
`Scope::integrate_chain` (source lines 109-115), indexed by fuel.  The
source fixes `suffix_index` at `1` and never increments it, so every
iteration probes the same candidate `ideal_1`. -/
def chainAliasLoopFuel (used : List String) (ideal : String) : Nat → Option (String × List String)
  | 0 => none
  | fuel + 1 =>
    let new_alias := ideal ++ "_" ++ Nat.repr 1
    if new_alias ∈ used then chainAliasLoopFuel used ideal fuel
    else some (new_alias, new_alias :: used)

/-- The `get_alias` closure of `Scope::integrate_chain` (source lines
96-116): try the ideal alias, then loop over `format!("{}_{}", ideal, 1)`
(`suffix_index` is never incremented).  The loop re-tests one fixed string
against an unchanged set, so it terminates on its first iteration or never:
`none` here denotes the diverging case, which `chainAliasLoopFuel_adequate`
ties to the fuel-indexed loop. -/
def chainGetAlias (used : List String) (ideal : String) : Option (String × List String) :=
  if ideal ∈ used then
    let new_alias := ideal ++ "_" ++ Nat.repr 1
    if new_alias ∈ used then none
    else some (new_alias, new_alias :: used)
  else some (ideal, ideal :: used)

/-- Association-list lookup by a `Nat` key, standing in for the map `get`
of the source's schema structures. -/
def lookupNat {α : Type} : List (Nat × α) → Nat → Option α
  | [], _ => none
  | p :: rest, k => if p.1 = k then some p.2 else lookupNat rest k

/-- Association-list lookup among a node's dependents, keyed by the link. -/
def lookupDep (l : LinkToOne) : List (LinkToOne × JoinTree) → Option JoinTree
  | [] => none
  | p :: rest => if p.1 = l then some p.2 else lookupDep l rest

/-- Replace the subtree keyed by `l` (first occurrence) with `t`. -/
def replaceDep (l : LinkToOne) (t : JoinTree) : List (LinkToOne × JoinTree) → List (LinkToOne × JoinTree)
  | [] => []
  | p :: rest => if p.1 = l then (l, t) :: rest else p :: replaceDep l t rest

/-- Modelled from the spec: `JoinTree::integrate_chain` (section 4.2 of the
spec; `join_tree.rs` is not part of the visible source).  Walk the chain's
links from the root; reuse an existing child keyed by the link, otherwise
allocate an alias through the caller-supplied callback (`getAl`, threaded
through the used-alias set) and attach a fresh child.  After the last link,
attach the CTE if one was supplied (overwriting any prior attachment) and
return its alias, otherwise return the final node's alias — the base table
name itself for an absent chain.  `none` propagates a diverging alias
callback. -/
def JoinTree.integrate_chain (getAl : LinkToOne → List String → Option (String × List String)) :
    JoinTree → List LinkToOne → Option Cte → List String → Option (JoinTree × String × List String)
  | .node a deps c, [], cte, used =>
    match cte with
    | none => some (.node a deps c, a, used)
    | some k => some (.node a deps (some k), k.alia, used)
  | .node a deps c, l :: rest, cte, used =>
    match lookupDep l deps with
    | some child =>
      (JoinTree.integrate_chain getAl child rest cte used).map
        (fun r => (.node a (replaceDep l r.1 deps) c, r.2.1, r.2.2))
    | none =>
      (getAl l used).bind (fun na =>
        (JoinTree.integrate_chain getAl (.node na.1 [] none) rest cte na.2).map
          (fun r => (.node a (deps ++ [(l, r.1)]) c, r.2.1, r.2.2)))

/-- The links of an optional chain: none denotes the "no to-one prefix"
case of the source, integrating at the tree root itself. -/
def chainLinks : Option (Chain LinkToOne) → List LinkToOne
  | none => []
  | some c => c.links

/-- `Scope::integrate_chain` (source lines 91-120): take the used-alias set
out of the scope, run the tree walk with the suffix-1 closure built over the
schema's ideal alias for each link, and write the set back.  `none` denotes
the diverging closure loop. -/
def Scope.integrate_chain (schema : Schema) (s : Scope) (chain : Option (Chain LinkToOne)) (cte : Option Cte) : Option (String × Scope) :=
  (JoinTree.integrate_chain (fun l used => chainGetAlias used (schema.ideal_alias l)) s.join_tree (chainLinks chain) cte s.aliases).map
    (fun r => (r.2.1, { s with join_tree := r.1, aliases := r.2.2 }))

/-- `Scope::join_chain_to_one` (source lines 122-124). -/
def Scope.join_chain_to_one (schema : Schema) (s : Scope) (chain : Chain LinkToOne) : Option (String × Scope) :=
  Scope.integrate_chain schema s (some chain) none

/-- The type of the external path-conversion collaborator
(`build_cte_select`); it receives the scope mutably and may fail with a
descriptive error.  Modelled from the spec: the routine itself lives in
`conversion/paths.rs`, outside the visible source. -/
def BuildCteSelect : Type :=
  Chain FilteredLink → Option String → List CompositionOp → Scope → CtePurpose → Except String (ValueViaCte × Scope)

/-- `Scope::join_chain_to_many` (source lines 142-172): resolve the chain's
starting table and column (two `unwrap`s — `panicked` when absent), delegate
to path conversion (`err` propagated verbatim), allocate a CTE alias, build
the CTE descriptor with the starting column's name as join-back column,
integrate it at the end of `head`, and return the value expression. -/
def Scope.join_chain_to_many (schema : Schema) (bcs : BuildCteSelect) (s : Scope)
    (head : Option (Chain LinkToOne)) (chain : Chain FilteredLink)
    (final_column_name : Option String) (compositions : List CompositionOp)
    (purpose : CtePurpose) : RunResult (SimpleExpression × Scope) :=
  let starting_reference := chain.first.start
  match lookupNat schema.tables starting_reference.table_id with
  | none => .panicked
  | some starting_table =>
    match lookupNat starting_table.columns starting_reference.column_id with
    | none => .panicked
    | some starting_column =>
      match bcs chain final_column_name compositions s purpose with
      | .error e => .err e
      | .ok (v, s1) =>
        let r := Scope.get_cte_alias s1
        let cte : Cte := {
          select := v.select
          alia := r.1
          purpose := purpose
          join_column_name := starting_column.name
        }
        match Scope.integrate_chain schema r.2 head (some cte) with
        | none => .diverged
        | some r2 =>
          .ok ({ base := .TableColumnReference r.1 v.value_alias, compositions := v.compositions }, r2.2)

/-- Free function `get_table_by_name` (source lines 190-194): resolve the
name through the options policy, then `unwrap` the table record — `panicked`
when the resolver yields an identity absent from the table map. -/
def get_table_by_name (options : Options) (schema : Schema) (name : String) : RunResult (Option Table) :=
  match options.resolve_identifier schema.table_lookup name with
  | none => .ok none
  | some id =>
    match lookupNat schema.tables id with
    | none => .panicked
    | some t => .ok (some t)

/-- `Scope::build` (source lines 34-50): resolve the base table, failing
with a message naming the missing table, and start with indentation 0, an
empty alias set, CTE counter 0 and a fresh tree rooted at the table's name. -/
def Scope.build (options : Options) (schema : Schema) (base_table_name : String) : RunResult Scope :=
  match get_table_by_name options schema base_table_name with
  | .panicked => .panicked
  | .diverged => .diverged
  | .err e => .err e
  | .ok none => .err ("Base table `" ++ base_table_name ++ "` does not exist.")
  | .ok (some base_table) =>
    .ok {
      base_table := base_table
      indentation_level := 0
      join_tree := JoinTree.new base_table.name
      aliases := []
      cte_naming_index := 0
    }

/-- `Scope::get_base_table` (source lines 52-54). -/
def Scope.get_base_table (s : Scope) : Table :=
  s.base_table

/-- `Scope::take_join_tree` (source lines 56-61): remove and return the
accumulated tree, leaving a fresh tree rooted at the base table. -/
def Scope.take_join_tree (s : Scope) : JoinTree × Scope :=
  (s.join_tree, { s with join_tree := JoinTree.new s.base_table.name })

/-- `Scope::get_indentation_level` (source lines 67-69). -/
def Scope.get_indentation_level (s : Scope) : Nat :=
  s.indentation_level

/-- `Scope::indented` (source lines 71-76): increment the indentation level
(saturating add — on `Nat` plain successor), run the computation, decrement
on every exit path (saturating sub — on `Nat` truncated subtraction) and
return the computation's result.  The computation is any state transformer,
covering error-returning computations via `T := Except ε α`. -/
def Scope.indented {T : Type} (f : Scope → T × Scope) (s : Scope) : T × Scope :=
  let s1 := { s with indentation_level := s.indentation_level + 1 }
  let r := f s1
  (r.1, { r.2 with indentation_level := r.2.indentation_level - 1 })

/-- `Scope::spawn` (source lines 78-88): an independent child Scope for a
new base table, with empty alias and CTE state and indentation one deeper. -/
def Scope.spawn (s : Scope) (base_table : Table) : Scope :=
  {
    base_table := base_table
    indentation_level := s.get_indentation_level + 1
    join_tree := JoinTree.new base_table.name
    aliases := []
    cte_naming_index := 0
  }

/-- The dependents list of a tree's root node. -/
def JoinTree.dependents : JoinTree → List (LinkToOne × JoinTree)
  | .node _ deps _ => deps

/-- The aliases of every proper (non-root) node of a tree: each dependent
subtree contributes its root alias and, recursively, the aliases of its own
dependents.  The tree root's alias (the base table name) is excluded — the
source never records it in the used-alias set. -/
def depsAliases : List (LinkToOne × JoinTree) → List String
  | [] => []
  | (_, .node a deps _) :: rest => a :: (depsAliases deps ++ depsAliases rest)

/-- The aliases contributed by one tree to a dependents list it appears in:
its root alias and the aliases of its own dependents. -/
def nodeAliases : JoinTree → List String
  | .node a deps _ => a :: depsAliases deps

/-- Scope invariant relating the two pieces of mutable state: every alias
assigned to a proper node of the join tree is recorded in the used-alias
set.  It holds for freshly built and spawned scopes (empty tree, empty set)
and is preserved by every operation. -/
def ScopeInv (s : Scope) : Prop :=
  ∀ a, a ∈ depsAliases s.join_tree.dependents → a ∈ s.aliases

/-- One alias-producing call of the claims: `get_alias`, the CTE-alias
allocation of `join_chain_to_many`, or a to-one chain integration. -/
inductive AliasOp where
  | getAlias (ideal : String)
  | getCte
  | joinToOne (chain : Chain LinkToOne)

/-- Whether an op allocates directly from the used-alias set (as opposed to
resolving a chain through the join tree, which may return the alias of an
already-existing node). -/
def AliasOp.isDirect : AliasOp → Bool
  | .getAlias _ => true
  | .getCte => true
  | .joinToOne _ => false

/-- Run one alias-producing call, returning the alias it hands back. -/
def runOp (schema : Schema) (s : Scope) : AliasOp → Option (String × Scope)
  | .getAlias ideal => some (Scope.get_alias s ideal)
  | .getCte => some (Scope.get_cte_alias s)
  | .joinToOne c => Scope.join_chain_to_one schema s c

/-- Run a sequence of alias-producing calls, collecting the returned
aliases; `none` when some integration hits the diverging closure loop. -/
def runOps (schema : Schema) (s : Scope) : List AliasOp → Option (List String × Scope)
  | [] => some ([], s)
  | op :: rest =>
    (runOp schema s op).bind (fun r =>
      (runOps schema r.2 rest).map (fun r2 => (r.1 :: r2.1, r2.2)))

/-- Association-list lookup by a `String` key, used by the concrete
resolver fixture below. -/
def lookupStr : List (String × Nat) → String → Option Nat
  | [], _ => none
  | p :: rest, k => if p.1 = k then some p.2 else lookupStr rest k

/-- Concrete fixtures used by witnesses and counterexamples. -/
def ordersTable : Table :=
  { id := 0, name := "orders", columns := [(0, { id := 0, name := "id" })] }

def customersTable : Table :=
  { id := 1, name := "customers", columns := [] }

def exSchema : Schema :=
  { tables := [(0, ordersTable), (1, customersTable)]
    table_lookup := [("orders", 0), ("customers", 1)]
    ideal_alias := fun _ => "customer" }

def exOptions : Options :=
  { resolve_identifier := fun l name => lookupStr l name }

def exScope : Scope :=
  { base_table := ordersTable, indentation_level := 0
    join_tree := JoinTree.new "orders", aliases := [], cte_naming_index := 0 }

def exLink : LinkToOne :=
  { start := { table_id := 0, column_id := 0 }, stop := { table_id := 1, column_id := 0 } }

def exChain : Chain LinkToOne :=
  { first := exLink, rest := [] }

/-- Fixture for the divergence bug of the `integrate_chain` closure: a
schema whose ideal alias is `x`, and a scope that has already allocated
`x` and `x_1`. -/
def xSchema : Schema :=
  { tables := [], table_lookup := [], ideal_alias := fun _ => "x" }

def xScope : Scope :=
  { base_table := ordersTable, indentation_level := 0
    join_tree := JoinTree.new "orders", aliases := ["x_1", "x"], cte_naming_index := 0 }

def exFilteredChain : Chain FilteredLink :=
  { first := { start := { table_id := 0, column_id := 0 }, stop := { table_id := 1, column_id := 0 } }
    rest := [] }

/-- A path-conversion stub that succeeds, passing all compositions back as
leftovers. -/
def exBcsOk : BuildCteSelect :=
  fun _ _ comps s _ => .ok ({ select := { id := 7 }, value_alias := "value", compositions := comps }, s)

/-- A path-conversion stub that fails with a descriptive error. -/
def exBcsErr : BuildCteSelect :=
  fun _ _ _ _ _ => .error "unsupported composition"

/-!
Theorems.  Helper lemmas come first; the claim theorems (named `claim_*`)
are stated at the end of each thematic group.
-/

/-- Decimal digit strings of large numbers are long: `10 ^ e ≤ n` forces at
least `e + 1` digits out of the core digit printer. -/
theorem toDigitsCore_length_lower :
    ∀ f n e : Nat, n < f → 10 ^ e ≤ n → e + 1 ≤ (Nat.toDigitsCore 10 f n []).length := by
  intro f
  induction f with
  | zero => intro n e h; omega
  | succ f ih =>
    intro n e hfuel hpow
    have hunfold : Nat.toDigitsCore 10 (f + 1) n [] =
        (if n / 10 = 0 then [Nat.digitChar (n % 10)]
         else Nat.toDigitsCore 10 f (n / 10) [Nat.digitChar (n % 10)]) := by
      simp [Nat.toDigitsCore]
    match e with
    | 0 =>
      rw [hunfold]
      by_cases hdiv : n / 10 = 0
      · simp [hdiv]
      · simp only [hdiv, if_false]
        rw [Nat.toDigitsCore_lens_eq]
        omega
    | e + 1 =>
      have h10 : (10 : Nat) ≤ 10 ^ (e + 1) := by
        calc (10 : Nat) = 10 ^ 1 := (pow_one 10).symm
        _ ≤ 10 ^ (e + 1) := Nat.pow_le_pow_right (by norm_num) (by omega)
      have hn10 : 10 ≤ n := le_trans h10 hpow
      have hdivpow : 10 ^ e ≤ n / 10 := by
        rw [Nat.le_div_iff_mul_le (by norm_num)]
        calc 10 ^ e * 10 = 10 ^ (e + 1) := (pow_succ 10 e).symm
        _ ≤ n := hpow
      have hdivpos : n / 10 ≠ 0 := by
        have : (1 : Nat) ≤ 10 ^ e := Nat.one_le_pow _ _ (by norm_num)
        omega
      have hdivlt : n / 10 < f := by
        have : n / 10 < n := Nat.div_lt_self (by omega) (by norm_num)
        omega
      rw [hunfold]
      simp only [hdivpos, if_false]
      rw [Nat.toDigitsCore_lens_eq]
      have := ih (n / 10) e hdivlt hdivpow
      omega

/-- Lower bound for the length of `Nat.repr`: a number at least `10 ^ e`
prints with at least `e + 1` characters. -/
theorem repr_length_lower (n e : Nat) (h : 10 ^ e ≤ n) : e + 1 ≤ (Nat.repr n).length := by
  have : Nat.repr n = (Nat.toDigitsCore 10 (n + 1) n []).asString := rfl
  rw [this]
  have hlen : ((Nat.toDigitsCore 10 (n + 1) n []).asString).length
      = (Nat.toDigitsCore 10 (n + 1) n []).length := rfl
  rw [hlen]
  exact toDigitsCore_length_lower (n + 1) n e (Nat.lt_succ_self n) h

/-- Every member of a string list is at most `maxStrLen` long. -/
theorem length_le_maxStrLen {x : String} : ∀ {l : List String}, x ∈ l → x.length ≤ maxStrLen l := by
  intro l
  induction l with
  | nil => intro h; cases h
  | cons s rest ih =>
    intro h
    rcases List.mem_cons.mp h with h1 | h2
    · subst h1; simp [maxStrLen]
    · have := ih h2
      simp [maxStrLen]
      omega

/-- A table-alias candidate with a large enough suffix index is longer than
every used alias, hence unused. -/
theorem aliasCandidate_big_not_mem (used : List String) (ideal : String) (j : Nat)
    (h : 10 ^ (maxStrLen used + 1) ≤ j) : aliasCandidate ideal j ∉ used := by
  intro hmem
  have hj1 : j ≠ 0 := by
    have : (1 : Nat) ≤ 10 ^ (maxStrLen used + 1) := Nat.one_le_pow _ _ (by norm_num)
    omega
  have hcand : aliasCandidate ideal j = ideal ++ "_" ++ Nat.repr j := by
    simp [aliasCandidate, hj1]
  have hlen : (aliasCandidate ideal j).length
      = ideal.length + 1 + (Nat.repr j).length := by
    rw [hcand, String.length_append, String.length_append]
    rfl
  have hrepr : maxStrLen used + 2 ≤ (Nat.repr j).length :=
    repr_length_lower j (maxStrLen used + 1) h
  have hbound := length_le_maxStrLen hmem
  omega

/-- A CTE-alias candidate with a large enough counter value is longer than
every used alias, hence unused. -/
theorem cteAliasCandidate_big_not_mem (used : List String) (j : Nat)
    (h : 10 ^ (maxStrLen used + 1) ≤ j) : cteAliasCandidate j ∉ used := by
  intro hmem
  have hlen : (cteAliasCandidate j).length
      = CTE_ALIAS_PREFIX.length + (Nat.repr j).length := by
    simp [cteAliasCandidate, String.length_append]
  have hrepr : maxStrLen used + 2 ≤ (Nat.repr j).length :=
    repr_length_lower j (maxStrLen used + 1) h
  have hbound := length_le_maxStrLen hmem
  omega

/-- What a successful probe loop returns: the first free candidate at or
after the start index, inserted into the used set. -/
theorem probeLoop_some (used : List String) (cand : Nat → String) :
    ∀ fuel k j a used', probeLoop used cand k fuel = some (j, a, used') →
      k ≤ j ∧ a = cand j ∧ cand j ∉ used ∧
      (∀ i, k ≤ i → i < j → cand i ∈ used) ∧ used' = cand j :: used := by
  intro fuel
  induction fuel with
  | zero => intro k j a used' h; simp [probeLoop] at h
  | succ fuel ih =>
    intro k j a used' h
    simp only [probeLoop] at h
    by_cases hk : cand k ∈ used
    · rw [if_pos hk] at h
      obtain ⟨h1, h2, h3, h4, h5⟩ := ih (k + 1) j a used' h
      refine ⟨by omega, h2, h3, ?_, h5⟩
      intro i hki hij
      by_cases hik : i = k
      · subst hik; exact hk
      · exact h4 i (by omega) hij
    · rw [if_neg hk] at h
      obtain ⟨rfl, rfl, rfl⟩ : k = j ∧ cand k = a ∧ cand k :: used = used' := by
        simpa using h
      exact ⟨Nat.le_refl _, rfl, hk, fun i h1 h2 => by omega, rfl⟩

/-- The probe loop succeeds whenever some candidate within fuel range is
free. -/
theorem probeLoop_isSome (used : List String) (cand : Nat → String) :
    ∀ fuel k j, k ≤ j → j < k + fuel → cand j ∉ used →
      (probeLoop used cand k fuel).isSome := by
  intro fuel
  induction fuel with
  | zero => intro k j h1 h2 h3; omega
  | succ fuel ih =>
    intro k j h1 h2 h3
    simp only [probeLoop]
    by_cases hk : cand k ∈ used
    · rw [if_pos hk]
      have hkj : k ≠ j := fun he => h3 (he ▸ hk)
      exact ih (k + 1) j (by omega) (by omega) h3
    · rw [if_neg hk]; rfl

/-- The probe behind `Scope::get_alias` always succeeds within the chosen
fuel: allocation never fails. -/
theorem get_alias_probe_isSome (used : List String) (ideal : String) :
    (probeLoop used (aliasCandidate ideal) 0 (probeFuel used)).isSome := by
  apply probeLoop_isSome used (aliasCandidate ideal) (probeFuel used) 0
      (10 ^ (maxStrLen used + 1))
  · exact Nat.zero_le _
  · simp [probeFuel]
  · exact aliasCandidate_big_not_mem used ideal _ (Nat.le_refl _)

/-- The probe behind `Scope::get_cte_alias` always succeeds within the
chosen fuel, from any starting counter. -/
theorem get_cte_alias_probe_isSome (used : List String) (k : Nat) :
    (probeLoop used cteAliasCandidate k (probeFuel used)).isSome := by
  apply probeLoop_isSome used cteAliasCandidate (probeFuel used) k
      (k + 10 ^ (maxStrLen used + 1))
  · exact Nat.le_add_right _ _
  · simp only [probeFuel]; omega
  · exact cteAliasCandidate_big_not_mem used _ (Nat.le_add_left _ _)

/-- Full characterization of `Scope::get_alias`: it returns the first free
candidate `ideal`, `ideal_1`, `ideal_2`, ..., inserts it into the used-alias
set and leaves every other field unchanged. -/
theorem get_alias_spec (s : Scope) (ideal : String) :
    ∃ j, aliasCandidate ideal j ∉ s.aliases ∧
      (∀ i, i < j → aliasCandidate ideal i ∈ s.aliases) ∧
      Scope.get_alias s ideal =
        (aliasCandidate ideal j, { s with aliases := aliasCandidate ideal j :: s.aliases }) := by
  have hsome := get_alias_probe_isSome s.aliases ideal
  unfold Scope.get_alias
  cases h : probeLoop s.aliases (aliasCandidate ideal) 0 (probeFuel s.aliases) with
  | none => rw [h] at hsome; simp at hsome
  | some r =>
    obtain ⟨j, a, used'⟩ := r
    obtain ⟨_, ha, hfree, hprev, hused⟩ := probeLoop_some s.aliases (aliasCandidate ideal) _ _ _ _ _ h
    subst ha
    subst hused
    exact ⟨j, hfree, fun i hij => hprev i (Nat.zero_le i) hij, rfl⟩

/-- Full characterization of `Scope::get_cte_alias`: it returns the first
free candidate `cte<i>` for `i = cte_naming_index, ...`, records it in the
shared used-alias set, and leaves the counter one past the successful index
— every skipped index was a collision, so the counter advanced on every
probe. -/
theorem get_cte_alias_spec (s : Scope) :
    ∃ j, s.cte_naming_index ≤ j ∧ cteAliasCandidate j ∉ s.aliases ∧
      (∀ i, s.cte_naming_index ≤ i → i < j → cteAliasCandidate i ∈ s.aliases) ∧
      Scope.get_cte_alias s =
        (cteAliasCandidate j,
          { s with aliases := cteAliasCandidate j :: s.aliases, cte_naming_index := j + 1 }) := by
  have hsome := get_cte_alias_probe_isSome s.aliases s.cte_naming_index
  unfold Scope.get_cte_alias
  cases h : probeLoop s.aliases cteAliasCandidate s.cte_naming_index (probeFuel s.aliases) with
  | none => rw [h] at hsome; simp at hsome
  | some r =>
    obtain ⟨j, a, used'⟩ := r
    obtain ⟨hle, ha, hfree, hprev, hused⟩ := probeLoop_some s.aliases cteAliasCandidate _ _ _ _ _ h
    subst ha
    subst hused
    exact ⟨j, hle, hfree, hprev, rfl⟩

/-- The suffix loop of the `integrate_chain` closure diverges exactly when
its one fixed candidate `ideal_1` is already used: no amount of fuel makes
it return. -/
theorem chainAliasLoopFuel_none (used : List String) (ideal : String)
    (h : ideal ++ "_" ++ Nat.repr 1 ∈ used) :
    ∀ fuel, chainAliasLoopFuel used ideal fuel = none := by
  intro fuel
  induction fuel with
  | zero => rfl
  | succ fuel ih => simpa [chainAliasLoopFuel, h] using ih

/-- Conversely, when `ideal_1` is free the loop returns it on its first
iteration with any positive fuel, matching `chainGetAlias`. -/
theorem chainAliasLoopFuel_some (used : List String) (ideal : String)
    (h : ideal ++ "_" ++ Nat.repr 1 ∉ used) (fuel : Nat) :
    chainAliasLoopFuel used ideal (fuel + 1) =
      some (ideal ++ "_" ++ Nat.repr 1, (ideal ++ "_" ++ Nat.repr 1) :: used) := by
  simp [chainAliasLoopFuel, h]

/-- `chainGetAlias` is the denotation of the closure: `none` coincides with
the fuel-indexed loop returning `none` at every fuel. -/
theorem chainGetAlias_none_iff (used : List String) (ideal : String) :
    chainGetAlias used ideal = none ↔
      ideal ∈ used ∧ ∀ fuel, chainAliasLoopFuel used ideal fuel = none := by
  constructor
  · intro h
    by_cases h0 : ideal ∈ used
    · refine ⟨h0, ?_⟩
      by_cases h1 : ideal ++ "_" ++ Nat.repr 1 ∈ used
      · exact chainAliasLoopFuel_none used ideal h1
      · simp [chainGetAlias, h0, h1] at h
    · simp [chainGetAlias, h0] at h
  · rintro ⟨h0, hloop⟩
    by_cases h1 : ideal ++ "_" ++ Nat.repr 1 ∈ used
    · simp [chainGetAlias, h0, h1]
    · have := hloop 1
      rw [chainAliasLoopFuel_some used ideal h1 0] at this
      simp at this

/-- A successful closure call returns a fresh alias and inserts it. -/
theorem chainGetAlias_fresh (used : List String) (ideal : String) (a : String)
    (used' : List String) (h : chainGetAlias used ideal = some (a, used')) :
    a ∉ used ∧ used' = a :: used := by
  by_cases h0 : ideal ∈ used
  · by_cases h1 : ideal ++ "_" ++ Nat.repr 1 ∈ used
    · simp [chainGetAlias, h0, h1] at h
    · simp only [chainGetAlias, if_pos h0, if_neg h1, Option.some.injEq, Prod.mk.injEq] at h
      obtain ⟨rfl, rfl⟩ := h
      exact ⟨h1, rfl⟩
  · simp only [chainGetAlias, if_neg h0, Option.some.injEq, Prod.mk.injEq] at h
    obtain ⟨rfl, rfl⟩ := h
    exact ⟨h0, rfl⟩

/-- `depsAliases` distributes over list append. -/
theorem depsAliases_append : ∀ d1 d2 : List (LinkToOne × JoinTree),
    depsAliases (d1 ++ d2) = depsAliases d1 ++ depsAliases d2 := by
  intro d1
  induction d1 with
  | nil => intro d2; simp [depsAliases]
  | cons p rest ih =>
    intro d2
    obtain ⟨l, t⟩ := p
    obtain ⟨a, deps, c⟩ := t
    simp [depsAliases, ih]

/-- `depsAliases` of a cons, in terms of `nodeAliases`. -/
theorem depsAliases_cons (l : LinkToOne) (t : JoinTree) (rest : List (LinkToOne × JoinTree)) :
    depsAliases ((l, t) :: rest) = nodeAliases t ++ depsAliases rest := by
  obtain ⟨a, deps, c⟩ := t
  simp [depsAliases, nodeAliases]

/-- A tree found among the dependents contributes all its aliases to
`depsAliases`. -/
theorem lookupDep_sub {l : LinkToOne} {child : JoinTree} :
    ∀ {deps : List (LinkToOne × JoinTree)}, lookupDep l deps = some child →
      ∀ x, x ∈ nodeAliases child → x ∈ depsAliases deps := by
  intro deps
  induction deps with
  | nil => intro h; simp [lookupDep] at h
  | cons p rest ih =>
    intro h x hx
    obtain ⟨l0, t0⟩ := p
    by_cases he : l0 = l
    · simp only [lookupDep, if_pos he] at h
      obtain rfl := Option.some.injEq .. ▸ h
      rw [depsAliases_cons]
      exact List.mem_append.mpr (Or.inl hx)
    · simp only [lookupDep, if_neg he] at h
      rw [depsAliases_cons]
      exact List.mem_append.mpr (Or.inr (ih h x hx))

/-- Replacing the tree keyed by a link that is present keeps every other
contribution and adds the new tree's aliases. -/
theorem mem_depsAliases_replaceDep {l : LinkToOne} {t2 : JoinTree} {x : String} :
    ∀ {deps : List (LinkToOne × JoinTree)}, x ∈ depsAliases (replaceDep l t2 deps) →
      x ∈ depsAliases deps ∨ x ∈ nodeAliases t2 := by
  intro deps
  induction deps with
  | nil => intro h; exact Or.inl h
  | cons p rest ih =>
    intro h
    obtain ⟨l0, t0⟩ := p
    by_cases he : l0 = l
    · simp only [replaceDep, if_pos he] at h
      rw [depsAliases_cons] at h
      rcases List.mem_append.mp h with h1 | h2
      · exact Or.inr h1
      · rw [depsAliases_cons]
        exact Or.inl (List.mem_append.mpr (Or.inr h2))
    · simp only [replaceDep, if_neg he] at h
      rw [depsAliases_cons] at h
      rcases List.mem_append.mp h with h1 | h2
      · rw [depsAliases_cons]
        exact Or.inl (List.mem_append.mpr (Or.inl h1))
      · rcases ih h2 with h3 | h3
        · rw [depsAliases_cons]
          exact Or.inl (List.mem_append.mpr (Or.inr h3))
        · exact Or.inr h3

/-- The replacement tree's aliases are contributions of the replaced list,
provided the key is present. -/
theorem replaceDep_mem {l : LinkToOne} {child t2 : JoinTree} :
    ∀ {deps : List (LinkToOne × JoinTree)}, lookupDep l deps = some child →
      ∀ x, x ∈ nodeAliases t2 → x ∈ depsAliases (replaceDep l t2 deps) := by
  intro deps
  induction deps with
  | nil => intro h; simp [lookupDep] at h
  | cons p rest ih =>
    intro h x hx
    obtain ⟨l0, t0⟩ := p
    by_cases he : l0 = l
    · simp only [replaceDep, if_pos he]
      rw [depsAliases_cons]
      exact List.mem_append.mpr (Or.inl hx)
    · simp only [lookupDep, if_neg he] at h
      simp only [replaceDep, if_neg he]
      rw [depsAliases_cons]
      exact List.mem_append.mpr (Or.inr (ih h x hx))

/-- Replacing a present key by the very tree stored there is the identity. -/
theorem replaceDep_self {l : LinkToOne} {child : JoinTree} :
    ∀ {deps : List (LinkToOne × JoinTree)}, lookupDep l deps = some child →
      replaceDep l child deps = deps := by
  intro deps
  induction deps with
  | nil => intro h; rfl
  | cons p rest ih =>
    intro h
    obtain ⟨l0, t0⟩ := p
    by_cases he : l0 = l
    · simp only [lookupDep, if_pos he] at h
      obtain rfl := Option.some.injEq .. ▸ h
      simp [replaceDep, he]
    · simp only [lookupDep, if_neg he] at h
      simp [replaceDep, he, ih h]

/-- Looking up a key just replaced yields the replacement. -/
theorem lookupDep_replaceDep {l : LinkToOne} {child t2 : JoinTree} :
    ∀ {deps : List (LinkToOne × JoinTree)}, lookupDep l deps = some child →
      lookupDep l (replaceDep l t2 deps) = some t2 := by
  intro deps
  induction deps with
  | nil => intro h; simp [lookupDep] at h
  | cons p rest ih =>
    intro h
    obtain ⟨l0, t0⟩ := p
    by_cases he : l0 = l
    · simp [replaceDep, if_pos he, lookupDep]
    · simp only [lookupDep, if_neg he] at h
      simp [replaceDep, if_neg he, lookupDep, he, ih h]

/-- Appending behind a list that misses the key pushes lookups to the
suffix. -/
theorem lookupDep_append_of_none {l : LinkToOne} :
    ∀ {deps : List (LinkToOne × JoinTree)} {d2 : List (LinkToOne × JoinTree)},
      lookupDep l deps = none → lookupDep l (deps ++ d2) = lookupDep l d2 := by
  intro deps
  induction deps with
  | nil => intro d2 _; rfl
  | cons p rest ih =>
    intro d2 h
    obtain ⟨l0, t0⟩ := p
    by_cases he : l0 = l
    · simp [lookupDep, if_pos he] at h
    · simp only [lookupDep, if_neg he] at h
      simp [lookupDep, if_neg he, ih h]

/-- Replacing in an appended list whose prefix misses the key only touches
the suffix. -/
theorem replaceDep_append_of_none {l : LinkToOne} {t2 : JoinTree} :
    ∀ {deps : List (LinkToOne × JoinTree)} {d2 : List (LinkToOne × JoinTree)},
      lookupDep l deps = none → replaceDep l t2 (deps ++ d2) = deps ++ replaceDep l t2 d2 := by
  intro deps
  induction deps with
  | nil => intro d2 _; rfl
  | cons p rest ih =>
    intro d2 h
    obtain ⟨l0, t0⟩ := p
    by_cases he : l0 = l
    · simp [lookupDep, if_pos he] at h
    · simp only [lookupDep, if_neg he] at h
      simp [replaceDep, if_neg he, ih h]

/-- Core facts about one chain integration, for any alias callback that
returns fresh aliases and inserts them (`H`): the root alias is untouched,
the used-alias set only grows, and if every proper node alias was recorded
before then every proper node alias of the result is recorded after. -/
theorem integrate_chain_main (getAl : LinkToOne → List String → Option (String × List String))
    (H : ∀ l u a u', getAl l u = some (a, u') → a ∉ u ∧ u' = a :: u) :
    ∀ (links : List LinkToOne) (t : JoinTree) (cte : Option Cte) (u : List String)
      (t' : JoinTree) (a : String) (u' : List String),
      JoinTree.integrate_chain getAl t links cte u = some (t', a, u') →
      JoinTree.rootAlias t' = JoinTree.rootAlias t ∧
      (∀ x, x ∈ u → x ∈ u') ∧
      ((∀ x, x ∈ depsAliases t.dependents → x ∈ u) →
        ∀ x, x ∈ depsAliases t'.dependents → x ∈ u') := by
  intro links
  induction links with
  | nil =>
    intro t cte u t' a u' h
    obtain ⟨a0, deps, c⟩ := t
    cases cte with
    | none =>
      simp only [JoinTree.integrate_chain, Option.some.injEq, Prod.mk.injEq] at h
      obtain ⟨rfl, rfl, rfl⟩ := h
      exact ⟨rfl, fun x hx => hx, fun hin => hin⟩
    | some k =>
      simp only [JoinTree.integrate_chain, Option.some.injEq, Prod.mk.injEq] at h
      obtain ⟨rfl, rfl, rfl⟩ := h
      exact ⟨rfl, fun x hx => hx, fun hin => hin⟩
  | cons l rest ih =>
    intro t cte u t' a u' h
    obtain ⟨a0, deps, c⟩ := t
    simp only [JoinTree.integrate_chain] at h
    split at h
    next child hlook =>
      cases hrec : JoinTree.integrate_chain getAl child rest cte u with
      | none => rw [hrec] at h; simp at h
      | some r =>
        obtain ⟨child', a1, u1⟩ := r
        rw [hrec] at h
        simp only [Option.map_some', Option.some.injEq, Prod.mk.injEq] at h
        obtain ⟨rfl, rfl, rfl⟩ := h
        obtain ⟨hroot, hmono, hinv⟩ := ih child cte u child' a1 u1 hrec
        refine ⟨rfl, hmono, ?_⟩
        intro hin x hx
        simp only [JoinTree.dependents] at hx hin
        rcases mem_depsAliases_replaceDep hx with h1 | h2
        · exact hmono x (hin x h1)
        · obtain ⟨ca, cdeps, cc⟩ := child'
          simp only [nodeAliases] at h2
          rcases List.mem_cons.mp h2 with h3 | h4
          · subst h3
            apply hmono
            apply hin
            apply lookupDep_sub hlook
            obtain ⟨ba, bdeps, bc⟩ := child
            simp only [JoinTree.rootAlias] at hroot
            subst hroot
            simp [nodeAliases]
          · apply hinv ?_ x
            · simpa [JoinTree.dependents] using h4
            · intro y hy
              apply hin
              apply lookupDep_sub hlook
              obtain ⟨ba, bdeps, bc⟩ := child
              simp only [JoinTree.dependents] at hy
              simp [nodeAliases, hy]
    next hlook =>
      cases hga : getAl l u with
      | none => rw [hga] at h; simp at h
      | some na =>
        obtain ⟨na0, u1⟩ := na
        rw [hga] at h
        obtain ⟨hfresh, rfl⟩ := H l u na0 u1 hga
        simp only [Option.some_bind] at h
        cases hrec : JoinTree.integrate_chain getAl (.node na0 [] none) rest cte (na0 :: u) with
        | none => rw [hrec] at h; simp at h
        | some r =>
          obtain ⟨child', a1, u2⟩ := r
          rw [hrec] at h
          simp only [Option.map_some', Option.some.injEq, Prod.mk.injEq] at h
          obtain ⟨rfl, rfl, rfl⟩ := h
          obtain ⟨hroot, hmono, hinv⟩ := ih (.node na0 [] none) cte (na0 :: u) child' a1 u2 hrec
          refine ⟨rfl, fun x hx => hmono x (List.mem_cons_of_mem _ hx), ?_⟩
          intro hin x hx
          simp only [JoinTree.dependents] at hx hin
          rw [depsAliases_append] at hx
          rcases List.mem_append.mp hx with h1 | h2
          · exact hmono x (List.mem_cons_of_mem _ (hin x h1))
          · obtain ⟨ca, cdeps, cc⟩ := child'
            rw [depsAliases_cons] at h2
            simp only [depsAliases, List.append_nil] at h2
            simp only [nodeAliases] at h2
            rcases List.mem_cons.mp h2 with h3 | h4
            · subst h3
              simp only [JoinTree.rootAlias] at hroot
              subst hroot
              exact hmono _ (List.mem_cons_self _ _)
            · apply hinv ?_ x
              · simpa [JoinTree.dependents] using h4
              · intro y hy
                simp [JoinTree.dependents, depsAliases] at hy

/-- Integration never makes an alias that was recorded but absent from the
tree appear in the tree: newly created nodes only carry aliases that were
fresh with respect to the (growing) used-alias set. -/
theorem integrate_chain_fresh (getAl : LinkToOne → List String → Option (String × List String))
    (H : ∀ l u a u', getAl l u = some (a, u') → a ∉ u ∧ u' = a :: u) :
    ∀ (links : List LinkToOne) (t : JoinTree) (cte : Option Cte) (u : List String)
      (t' : JoinTree) (a : String) (u' : List String),
      JoinTree.integrate_chain getAl t links cte u = some (t', a, u') →
      ∀ x, x ∈ u → x ∉ depsAliases t.dependents → x ∉ depsAliases t'.dependents := by
  intro links
  induction links with
  | nil =>
    intro t cte u t' a u' h x hxu hxt
    obtain ⟨a0, deps, c⟩ := t
    cases cte with
    | none =>
      simp only [JoinTree.integrate_chain, Option.some.injEq, Prod.mk.injEq] at h
      obtain ⟨rfl, rfl, rfl⟩ := h
      exact hxt
    | some k =>
      simp only [JoinTree.integrate_chain, Option.some.injEq, Prod.mk.injEq] at h
      obtain ⟨rfl, rfl, rfl⟩ := h
      exact hxt
  | cons l rest ih =>
    intro t cte u t' a u' h x hxu hxt
    obtain ⟨a0, deps, c⟩ := t
    simp only [JoinTree.integrate_chain] at h
    split at h
    next child hlook =>
      cases hrec : JoinTree.integrate_chain getAl child rest cte u with
      | none => rw [hrec] at h; simp at h
      | some r =>
        obtain ⟨child', a1, u1⟩ := r
        rw [hrec] at h
        simp only [Option.map_some', Option.some.injEq, Prod.mk.injEq] at h
        obtain ⟨rfl, rfl, rfl⟩ := h
        obtain ⟨hroot, hmono, _⟩ := integrate_chain_main getAl H rest child cte u child' a1 u1 hrec
        simp only [JoinTree.dependents] at hxt ⊢
        intro hx
        rcases mem_depsAliases_replaceDep hx with h1 | h2
        · exact hxt h1
        · obtain ⟨ca, cdeps, cc⟩ := child'
          simp only [nodeAliases] at h2
          rcases List.mem_cons.mp h2 with h3 | h4
          · subst h3
            apply hxt
            apply lookupDep_sub hlook
            obtain ⟨ba, bdeps, bc⟩ := child
            simp only [JoinTree.rootAlias] at hroot
            subst hroot
            simp [nodeAliases]
          · have hnotchild : x ∉ depsAliases child.dependents := by
              intro hc
              apply hxt
              apply lookupDep_sub hlook
              obtain ⟨ba, bdeps, bc⟩ := child
              simp only [JoinTree.dependents] at hc
              simp [nodeAliases, hc]
            have := ih child cte u (.node ca cdeps cc) a1 u1 hrec x hxu hnotchild
            simp only [JoinTree.dependents] at this
            exact this h4
    next hlook =>
      cases hga : getAl l u with
      | none => rw [hga] at h; simp at h
      | some na =>
        obtain ⟨na0, u1⟩ := na
        rw [hga] at h
        obtain ⟨hfresh, rfl⟩ := H l u na0 u1 hga
        simp only [Option.some_bind] at h
        cases hrec : JoinTree.integrate_chain getAl (.node na0 [] none) rest cte (na0 :: u) with
        | none => rw [hrec] at h; simp at h
        | some r =>
          obtain ⟨child', a1, u2⟩ := r
          rw [hrec] at h
          simp only [Option.map_some', Option.some.injEq, Prod.mk.injEq] at h
          obtain ⟨rfl, rfl, rfl⟩ := h
          obtain ⟨hroot, hmono, _⟩ :=
            integrate_chain_main getAl H rest (.node na0 [] none) cte (na0 :: u) child' a1 u2 hrec
          simp only [JoinTree.dependents] at hxt ⊢
          intro hx
          rw [depsAliases_append] at hx
          rcases List.mem_append.mp hx with h1 | h2
          · exact hxt h1
          · obtain ⟨ca, cdeps, cc⟩ := child'
            rw [depsAliases_cons] at h2
            simp only [depsAliases, List.append_nil] at h2
            simp only [nodeAliases] at h2
            rcases List.mem_cons.mp h2 with h3 | h4
            · simp only [JoinTree.rootAlias] at hroot
              subst h3
              rw [hroot] at hxu
              exact hfresh hxu
            · have := ih (.node na0 [] none) cte (na0 :: u) (.node ca cdeps cc) a1 u2 hrec x
                (List.mem_cons_of_mem _ hxu) (by simp [JoinTree.dependents, depsAliases])
              simp only [JoinTree.dependents] at this
              exact this h4

/-- The alias returned by a CTE-less integration is an alias of the result
tree: the root alias for an empty chain, a proper node alias otherwise. -/
theorem integrate_chain_ret_mem (getAl : LinkToOne → List String → Option (String × List String)) :
    ∀ (links : List LinkToOne) (t : JoinTree) (u : List String)
      (t' : JoinTree) (a : String) (u' : List String),
      JoinTree.integrate_chain getAl t links none u = some (t', a, u') →
      a ∈ nodeAliases t' ∧ (links ≠ [] → a ∈ depsAliases t'.dependents) := by
  intro links
  induction links with
  | nil =>
    intro t u t' a u' h
    obtain ⟨a0, deps, c⟩ := t
    simp only [JoinTree.integrate_chain, Option.some.injEq, Prod.mk.injEq] at h
    obtain ⟨rfl, rfl, rfl⟩ := h
    exact ⟨List.mem_cons_self _ _, fun hne => absurd rfl hne⟩
  | cons l rest ih =>
    intro t u t' a u' h
    obtain ⟨a0, deps, c⟩ := t
    simp only [JoinTree.integrate_chain] at h
    split at h
    next child hlook =>
      cases hrec : JoinTree.integrate_chain getAl child rest none u with
      | none => rw [hrec] at h; simp at h
      | some r =>
        obtain ⟨child', a1, u1⟩ := r
        rw [hrec] at h
        simp only [Option.map_some', Option.some.injEq, Prod.mk.injEq] at h
        obtain ⟨rfl, rfl, rfl⟩ := h
        obtain ⟨hnode, _⟩ := ih child u child' a1 u1 hrec
        have hdeps : a1 ∈ depsAliases (replaceDep l child' deps) :=
          replaceDep_mem hlook a1 hnode
        refine ⟨?_, fun _ => by simpa [JoinTree.dependents] using hdeps⟩
        simp only [nodeAliases]
        exact List.mem_cons_of_mem _ hdeps
    next hlook =>
      cases hga : getAl l u with
      | none => rw [hga] at h; simp at h
      | some na =>
        obtain ⟨na0, u1⟩ := na
        rw [hga] at h
        simp only [Option.some_bind] at h
        cases hrec : JoinTree.integrate_chain getAl (.node na0 [] none) rest none u1 with
        | none => rw [hrec] at h; simp at h
        | some r =>
          obtain ⟨child', a1, u2⟩ := r
          rw [hrec] at h
          simp only [Option.map_some', Option.some.injEq, Prod.mk.injEq] at h
          obtain ⟨rfl, rfl, rfl⟩ := h
          obtain ⟨hnode, _⟩ := ih (.node na0 [] none) u1 child' a1 u2 hrec
          have hdeps : a1 ∈ depsAliases (deps ++ [(l, child')]) := by
            rw [depsAliases_append, depsAliases_cons]
            simp only [depsAliases, List.append_nil]
            exact List.mem_append.mpr (Or.inr hnode)
          refine ⟨?_, fun _ => by simpa [JoinTree.dependents] using hdeps⟩
          simp only [nodeAliases]
          exact List.mem_cons_of_mem _ hdeps

/-- Replacing the same key twice with the same tree is one replacement. -/
theorem replaceDep_idem {l : LinkToOne} {t2 : JoinTree} :
    ∀ deps : List (LinkToOne × JoinTree),
      replaceDep l t2 (replaceDep l t2 deps) = replaceDep l t2 deps := by
  intro deps
  induction deps with
  | nil => rfl
  | cons p rest ih =>
    obtain ⟨l0, t0⟩ := p
    by_cases he : l0 = l
    · simp [replaceDep, he]
    · simp [replaceDep, he, ih]

/-- Join merge idempotence at the tree level: a second integration of the
same CTE-less chain returns the same alias, leaves the tree untouched and
does not consult or extend the used-alias set. -/
theorem integrate_chain_twice (getAl : LinkToOne → List String → Option (String × List String)) :
    ∀ (links : List LinkToOne) (t : JoinTree) (u : List String)
      (t' : JoinTree) (a : String) (u1 : List String),
      JoinTree.integrate_chain getAl t links none u = some (t', a, u1) →
      ∀ u2, JoinTree.integrate_chain getAl t' links none u2 = some (t', a, u2) := by
  intro links
  induction links with
  | nil =>
    intro t u t' a u1 h u2
    obtain ⟨a0, deps, c⟩ := t
    simp only [JoinTree.integrate_chain, Option.some.injEq, Prod.mk.injEq] at h
    obtain ⟨rfl, rfl, rfl⟩ := h
    simp [JoinTree.integrate_chain]
  | cons l rest ih =>
    intro t u t' a u1 h u2
    obtain ⟨a0, deps, c⟩ := t
    simp only [JoinTree.integrate_chain] at h
    split at h
    next child hlook =>
      cases hrec : JoinTree.integrate_chain getAl child rest none u with
      | none => rw [hrec] at h; simp at h
      | some r =>
        obtain ⟨child', a1, u1'⟩ := r
        rw [hrec] at h
        simp only [Option.map_some', Option.some.injEq, Prod.mk.injEq] at h
        obtain ⟨rfl, rfl, rfl⟩ := h
        have hlook2 : lookupDep l (replaceDep l child' deps) = some child' :=
          lookupDep_replaceDep hlook
        have hrec2 : JoinTree.integrate_chain getAl child' rest none u2 = some (child', a1, u2) :=
          ih child u child' a1 u1' hrec u2
        simp only [JoinTree.integrate_chain, hlook2, hrec2, Option.map_some']
        rw [replaceDep_idem]
    next hlook =>
      cases hga : getAl l u with
      | none => rw [hga] at h; simp at h
      | some na =>
        obtain ⟨na0, u1'⟩ := na
        rw [hga] at h
        simp only [Option.some_bind] at h
        cases hrec : JoinTree.integrate_chain getAl (.node na0 [] none) rest none u1' with
        | none => rw [hrec] at h; simp at h
        | some r =>
          obtain ⟨child', a1, u2'⟩ := r
          rw [hrec] at h
          simp only [Option.map_some', Option.some.injEq, Prod.mk.injEq] at h
          obtain ⟨rfl, rfl, rfl⟩ := h
          have hlook2 : lookupDep l (deps ++ [(l, child')]) = some child' := by
            rw [lookupDep_append_of_none hlook]
            simp [lookupDep]
          have hrec2 : JoinTree.integrate_chain getAl child' rest none u2 = some (child', a1, u2) :=
            ih (.node na0 [] none) u1' child' a1 u2' hrec u2
          simp only [JoinTree.integrate_chain, hlook2, hrec2, Option.map_some']
          rw [replaceDep_append_of_none hlook]
          simp [replaceDep]

/-- The alias closure that `Scope::integrate_chain` hands to the tree walk
returns fresh aliases and inserts them into the running set. -/
theorem scope_closure_fresh (schema : Schema) :
    ∀ l u a u', chainGetAlias u (schema.ideal_alias l) = some (a, u') → a ∉ u ∧ u' = a :: u := by
  intro l u a u' h
  exact chainGetAlias_fresh u (schema.ideal_alias l) a u' h

/-- Successful scope-level integration in terms of the tree walk. -/
theorem scope_integrate_some (schema : Schema) (s : Scope) (chain : Option (Chain LinkToOne))
    (cte : Option Cte) (a : String) (s' : Scope)
    (h : Scope.integrate_chain schema s chain cte = some (a, s')) :
    ∃ t' u', JoinTree.integrate_chain (fun l used => chainGetAlias used (schema.ideal_alias l))
        s.join_tree (chainLinks chain) cte s.aliases
        = some (t', a, u') ∧
      s' = { s with join_tree := t', aliases := u' } := by
  unfold Scope.integrate_chain at h
  cases hrec : JoinTree.integrate_chain (fun l used => chainGetAlias used (schema.ideal_alias l))
      s.join_tree (chainLinks chain) cte s.aliases with
  | none => rw [hrec] at h; simp at h
  | some r =>
    obtain ⟨t', a1, u'⟩ := r
    rw [hrec] at h
    simp only [Option.map_some', Option.some.injEq, Prod.mk.injEq] at h
    obtain ⟨rfl, rfl⟩ := h
    exact ⟨t', u', rfl, rfl⟩

/-- Any alias-producing call only grows the used-alias set. -/
theorem runOp_mono (schema : Schema) (s : Scope) (op : AliasOp) (a : String) (s' : Scope)
    (h : runOp schema s op = some (a, s')) : ∀ x, x ∈ s.aliases → x ∈ s'.aliases := by
  cases op with
  | getAlias ideal =>
    obtain ⟨j, _, _, heq⟩ := get_alias_spec s ideal
    simp only [runOp, Option.some.injEq] at h
    rw [heq] at h
    obtain ⟨rfl, rfl⟩ := Prod.mk.injEq .. ▸ h
    intro x hx
    exact List.mem_cons_of_mem _ hx
  | getCte =>
    obtain ⟨j, _, _, _, heq⟩ := get_cte_alias_spec s
    simp only [runOp, Option.some.injEq] at h
    rw [heq] at h
    obtain ⟨rfl, rfl⟩ := Prod.mk.injEq .. ▸ h
    intro x hx
    exact List.mem_cons_of_mem _ hx
  | joinToOne c =>
    simp only [runOp, Scope.join_chain_to_one] at h
    obtain ⟨t', u', hrec, rfl⟩ := scope_integrate_some schema s (some c) none a s' h
    obtain ⟨_, hmono, _⟩ := integrate_chain_main _ (scope_closure_fresh schema) _ _ _ _ _ _ _ hrec
    exact hmono

/-- Any alias-producing call preserves the scope invariant. -/
theorem runOp_inv (schema : Schema) (s : Scope) (op : AliasOp) (a : String) (s' : Scope)
    (h : runOp schema s op = some (a, s')) (hinv : ScopeInv s) : ScopeInv s' := by
  cases op with
  | getAlias ideal =>
    obtain ⟨j, _, _, heq⟩ := get_alias_spec s ideal
    simp only [runOp, Option.some.injEq] at h
    rw [heq] at h
    obtain ⟨rfl, rfl⟩ := Prod.mk.injEq .. ▸ h
    intro x hx
    exact List.mem_cons_of_mem _ (hinv x hx)
  | getCte =>
    obtain ⟨j, _, _, _, heq⟩ := get_cte_alias_spec s
    simp only [runOp, Option.some.injEq] at h
    rw [heq] at h
    obtain ⟨rfl, rfl⟩ := Prod.mk.injEq .. ▸ h
    intro x hx
    exact List.mem_cons_of_mem _ (hinv x hx)
  | joinToOne c =>
    simp only [runOp, Scope.join_chain_to_one] at h
    obtain ⟨t', u', hrec, rfl⟩ := scope_integrate_some schema s (some c) none a s' h
    obtain ⟨_, _, hinv'⟩ := integrate_chain_main _ (scope_closure_fresh schema) _ _ _ _ _ _ _ hrec
    exact hinv' hinv

/-- Any alias-producing call records its returned alias in the used-alias
set (given the scope invariant). -/
theorem runOp_recorded (schema : Schema) (s : Scope) (op : AliasOp) (a : String) (s' : Scope)
    (h : runOp schema s op = some (a, s')) (hinv : ScopeInv s) : a ∈ s'.aliases := by
  cases op with
  | getAlias ideal =>
    obtain ⟨j, _, _, heq⟩ := get_alias_spec s ideal
    simp only [runOp, Option.some.injEq] at h
    rw [heq] at h
    obtain ⟨rfl, rfl⟩ := Prod.mk.injEq .. ▸ h
    exact List.mem_cons_self _ _
  | getCte =>
    obtain ⟨j, _, _, _, heq⟩ := get_cte_alias_spec s
    simp only [runOp, Option.some.injEq] at h
    rw [heq] at h
    obtain ⟨rfl, rfl⟩ := Prod.mk.injEq .. ▸ h
    exact List.mem_cons_self _ _
  | joinToOne c =>
    simp only [runOp, Scope.join_chain_to_one] at h
    obtain ⟨t', u', hrec, rfl⟩ := scope_integrate_some schema s (some c) none a s' h
    obtain ⟨_, hdeps⟩ := integrate_chain_ret_mem _ _ _ _ _ _ _ hrec
    obtain ⟨_, _, hinv'⟩ := integrate_chain_main _ (scope_closure_fresh schema) _ _ _ _ _ _ _ hrec
    refine hinv' hinv a ?_
    exact hdeps (by simp [chainLinks, Chain.links])

/-- A direct allocation (`get_alias` or a CTE alias) is fresh: it never
equals an alias that was already in the used set. -/
theorem runOp_fresh (schema : Schema) (s : Scope) (op : AliasOp) (a : String) (s' : Scope)
    (h : runOp schema s op = some (a, s')) (hdir : op.isDirect = true) : a ∉ s.aliases := by
  cases op with
  | getAlias ideal =>
    obtain ⟨j, hfree, _, heq⟩ := get_alias_spec s ideal
    simp only [runOp, Option.some.injEq] at h
    rw [heq] at h
    obtain ⟨rfl, rfl⟩ := Prod.mk.injEq .. ▸ h
    exact hfree
  | getCte =>
    obtain ⟨j, _, hfree, _, heq⟩ := get_cte_alias_spec s
    simp only [runOp, Option.some.injEq] at h
    rw [heq] at h
    obtain ⟨rfl, rfl⟩ := Prod.mk.injEq .. ▸ h
    exact hfree
  | joinToOne c => simp [AliasOp.isDirect] at hdir

/-- A direct allocation leaves the join tree untouched. -/
theorem runOp_tree_direct (schema : Schema) (s : Scope) (op : AliasOp) (a : String) (s' : Scope)
    (h : runOp schema s op = some (a, s')) (hdir : op.isDirect = true) :
    s'.join_tree = s.join_tree := by
  cases op with
  | getAlias ideal =>
    obtain ⟨j, _, _, heq⟩ := get_alias_spec s ideal
    simp only [runOp, Option.some.injEq] at h
    rw [heq] at h
    obtain ⟨rfl, rfl⟩ := Prod.mk.injEq .. ▸ h
    rfl
  | getCte =>
    obtain ⟨j, _, _, _, heq⟩ := get_cte_alias_spec s
    simp only [runOp, Option.some.injEq] at h
    rw [heq] at h
    obtain ⟨rfl, rfl⟩ := Prod.mk.injEq .. ▸ h
    rfl
  | joinToOne c => simp [AliasOp.isDirect] at hdir

/-- A recorded alias that is absent from the join tree stays absent from it
across any alias-producing call. -/
theorem runOp_fresh_tree (schema : Schema) (s : Scope) (op : AliasOp) (a : String) (s' : Scope)
    (h : runOp schema s op = some (a, s')) (x : String) (hxu : x ∈ s.aliases)
    (hxt : x ∉ depsAliases s.join_tree.dependents) :
    x ∉ depsAliases s'.join_tree.dependents := by
  cases op with
  | getAlias ideal =>
    obtain ⟨j, _, _, heq⟩ := get_alias_spec s ideal
    simp only [runOp, Option.some.injEq] at h
    rw [heq] at h
    obtain ⟨rfl, rfl⟩ := Prod.mk.injEq .. ▸ h
    exact hxt
  | getCte =>
    obtain ⟨j, _, _, _, heq⟩ := get_cte_alias_spec s
    simp only [runOp, Option.some.injEq] at h
    rw [heq] at h
    obtain ⟨rfl, rfl⟩ := Prod.mk.injEq .. ▸ h
    exact hxt
  | joinToOne c =>
    simp only [runOp, Scope.join_chain_to_one] at h
    obtain ⟨t', u', hrec, rfl⟩ := scope_integrate_some schema s (some c) none a s' h
    exact integrate_chain_fresh _ (scope_closure_fresh schema) _ _ _ _ _ _ _ hrec x hxu hxt

/-- An integration's returned alias is an alias of some proper node of the
resulting join tree. -/
theorem runOp_ret_tree (schema : Schema) (s : Scope) (op : AliasOp) (a : String) (s' : Scope)
    (h : runOp schema s op = some (a, s')) (hjoin : op.isDirect = false) :
    a ∈ depsAliases s'.join_tree.dependents := by
  cases op with
  | getAlias ideal => simp [AliasOp.isDirect] at hjoin
  | getCte => simp [AliasOp.isDirect] at hjoin
  | joinToOne c =>
    simp only [runOp, Scope.join_chain_to_one] at h
    obtain ⟨t', u', hrec, rfl⟩ := scope_integrate_some schema s (some c) none a s' h
    obtain ⟨_, hdeps⟩ := integrate_chain_ret_mem _ _ _ _ _ _ _ hrec
    exact hdeps (by simp [chainLinks, Chain.links])

/-- Destructuring one step of `runOps`. -/
theorem runOps_destruct (schema : Schema) (s : Scope) (op : AliasOp) (rest : List AliasOp)
    (outs : List String) (s' : Scope) (h : runOps schema s (op :: rest) = some (outs, s')) :
    ∃ a s1 outs', runOp schema s op = some (a, s1) ∧
      runOps schema s1 rest = some (outs', s') ∧ outs = a :: outs' := by
  simp only [runOps] at h
  cases hop : runOp schema s op with
  | none => rw [hop] at h; simp at h
  | some r =>
    obtain ⟨a, s1⟩ := r
    rw [hop] at h
    simp only [Option.some_bind] at h
    cases hrest : runOps schema s1 rest with
    | none => rw [hrest] at h; simp at h
    | some r2 =>
      obtain ⟨outs', s2⟩ := r2
      rw [hrest] at h
      simp only [Option.map_some', Option.some.injEq, Prod.mk.injEq] at h
      obtain ⟨rfl, rfl⟩ := h
      exact ⟨a, s1, outs', rfl, hrest, rfl⟩

/-- A run of alias-producing calls only grows the used-alias set. -/
theorem runOps_mono (schema : Schema) :
    ∀ (ops : List AliasOp) (s : Scope) (outs : List String) (s' : Scope),
      runOps schema s ops = some (outs, s') → ∀ x, x ∈ s.aliases → x ∈ s'.aliases := by
  intro ops
  induction ops with
  | nil =>
    intro s outs s' h x hx
    simp only [runOps, Option.some.injEq, Prod.mk.injEq] at h
    obtain ⟨rfl, rfl⟩ := h
    exact hx
  | cons op rest ih =>
    intro s outs s' h x hx
    obtain ⟨a, s1, outs', hop, hrest, rfl⟩ := runOps_destruct schema s op rest outs s' h
    exact ih s1 outs' s' hrest x (runOp_mono schema s op a s1 hop x hx)

/-- A run of alias-producing calls preserves the scope invariant. -/
theorem runOps_inv (schema : Schema) :
    ∀ (ops : List AliasOp) (s : Scope) (outs : List String) (s' : Scope),
      runOps schema s ops = some (outs, s') → ScopeInv s → ScopeInv s' := by
  intro ops
  induction ops with
  | nil =>
    intro s outs s' h hinv
    simp only [runOps, Option.some.injEq, Prod.mk.injEq] at h
    obtain ⟨rfl, rfl⟩ := h
    exact hinv
  | cons op rest ih =>
    intro s outs s' h hinv
    obtain ⟨a, s1, outs', hop, hrest, rfl⟩ := runOps_destruct schema s op rest outs s' h
    exact ih s1 outs' s' hrest (runOp_inv schema s op a s1 hop hinv)

/-- Every alias returned during a run is recorded in the final used-alias
set. -/
theorem runOps_recorded (schema : Schema) :
    ∀ (ops : List AliasOp) (s : Scope) (outs : List String) (s' : Scope),
      runOps schema s ops = some (outs, s') → ScopeInv s → ∀ a, a ∈ outs → a ∈ s'.aliases := by
  intro ops
  induction ops with
  | nil =>
    intro s outs s' h _ a ha
    simp only [runOps, Option.some.injEq, Prod.mk.injEq] at h
    obtain ⟨rfl, rfl⟩ := h
    cases ha
  | cons op rest ih =>
    intro s outs s' h hinv a ha
    obtain ⟨a0, s1, outs', hop, hrest, rfl⟩ := runOps_destruct schema s op rest outs s' h
    rcases List.mem_cons.mp ha with h1 | h2
    · subst h1
      exact runOps_mono schema rest s1 outs' s' hrest a
        (runOp_recorded schema s op a s1 hop hinv)
    · exact ih s1 outs' s' hrest (runOp_inv schema s op a0 s1 hop hinv) a h2

/-- A string already recorded before a run is never returned by any direct
allocation of the run. -/
theorem runOps_avoid (schema : Schema) :
    ∀ (ops : List AliasOp) (s : Scope) (outs : List String) (s' : Scope),
      runOps schema s ops = some (outs, s') → ∀ x, x ∈ s.aliases →
      ∀ (j : Nat) (opj : AliasOp) (aj : String), ops[j]? = some opj → outs[j]? = some aj → opj.isDirect = true → aj ≠ x := by
  intro ops
  induction ops with
  | nil =>
    intro s outs s' h x hx j opj aj hops houts hdir
    simp at hops
  | cons op rest ih =>
    intro s outs s' h x hx j opj aj hops houts hdir
    obtain ⟨a0, s1, outs', hop, hrest, rfl⟩ := runOps_destruct schema s op rest outs s' h
    cases j with
    | zero =>
      simp only [List.getElem?_cons_zero, Option.some.injEq] at hops houts
      subst hops
      subst houts
      intro he
      exact runOp_fresh schema s op a0 s1 hop hdir (he ▸ hx)
    | succ j =>
      simp only [List.getElem?_cons_succ] at hops houts
      exact ih s1 outs' s' hrest x (runOp_mono schema s op a0 s1 hop x hx) j opj aj hops houts hdir

/-- A string recorded in the used-alias set but absent from the join tree is
never returned by any later alias-producing call, direct or not. -/
theorem runOps_avoid_tree (schema : Schema) :
    ∀ (ops : List AliasOp) (s : Scope) (outs : List String) (s' : Scope),
      runOps schema s ops = some (outs, s') → ScopeInv s → ∀ x, x ∈ s.aliases →
      x ∉ depsAliases s.join_tree.dependents →
      ∀ (j : Nat) (aj : String), outs[j]? = some aj → aj ≠ x := by
  intro ops
  induction ops with
  | nil =>
    intro s outs s' h _ x _ _ j aj houts
    simp only [runOps, Option.some.injEq, Prod.mk.injEq] at h
    obtain ⟨rfl, rfl⟩ := h
    simp at houts
  | cons op rest ih =>
    intro s outs s' h hinv x hxu hxt j aj houts
    obtain ⟨a0, s1, outs', hop, hrest, rfl⟩ := runOps_destruct schema s op rest outs s' h
    cases j with
    | zero =>
      simp only [List.getElem?_cons_zero, Option.some.injEq] at houts
      subst houts
      cases hdir : op.isDirect with
      | true =>
        intro he
        exact runOp_fresh schema s op a0 s1 hop hdir (he ▸ hxu)
      | false =>
        have hret := runOp_ret_tree schema s op a0 s1 hop hdir
        have hfr := runOp_fresh_tree schema s op a0 s1 hop x hxu hxt
        intro he
        exact hfr (he ▸ hret)
    | succ j =>
      simp only [List.getElem?_cons_succ] at houts
      exact ih s1 outs' s' hrest (runOp_inv schema s op a0 s1 hop hinv) x
        (runOp_mono schema s op a0 s1 hop x hxu)
        (runOp_fresh_tree schema s op a0 s1 hop x hxu hxt) j aj houts

/-- Pairwise distinctness of returned aliases across one run, except that
two chain integrations may both return the alias of one shared join node:
whenever at least one of the two calls is a direct allocation, the two
returned aliases differ. -/
theorem runOps_pairwise (schema : Schema) :
    ∀ (ops : List AliasOp) (s : Scope) (outs : List String) (s' : Scope),
      runOps schema s ops = some (outs, s') → ScopeInv s →
      ∀ (i j : Nat) (opi opj : AliasOp) (ai aj : String), i < j → ops[i]? = some opi → ops[j]? = some opj →
        outs[i]? = some ai → outs[j]? = some aj →
        (opi.isDirect = true ∨ opj.isDirect = true) → ai ≠ aj := by
  intro ops
  induction ops with
  | nil =>
    intro s outs s' h _ i j opi opj ai aj hij hopsi hopsj houtsi houtsj hdir
    simp at hopsi
  | cons op rest ih =>
    intro s outs s' h hinv i j opi opj ai aj hij hopsi hopsj houtsi houtsj hdir
    obtain ⟨a0, s1, outs', hop, hrest, rfl⟩ := runOps_destruct schema s op rest outs s' h
    cases i with
    | zero =>
      simp only [List.getElem?_cons_zero, Option.some.injEq] at hopsi houtsi
      subst hopsi
      subst houtsi
      obtain ⟨j', rfl⟩ : ∃ j', j = j' + 1 := ⟨j - 1, by omega⟩
      simp only [List.getElem?_cons_succ] at hopsj houtsj
      rcases hdir with hd | hd
      · have hrec : a0 ∈ s1.aliases := runOp_recorded schema s op a0 s1 hop hinv
        have hnotree : a0 ∉ depsAliases s1.join_tree.dependents := by
          rw [runOp_tree_direct schema s op a0 s1 hop hd]
          intro hmem
          exact runOp_fresh schema s op a0 s1 hop hd (hinv a0 hmem)
        exact fun he =>
          runOps_avoid_tree schema rest s1 outs' s' hrest
            (runOp_inv schema s op a0 s1 hop hinv) a0 hrec hnotree j' aj houtsj he.symm
      · have hrec : a0 ∈ s1.aliases := runOp_recorded schema s op a0 s1 hop hinv
        exact fun he =>
          runOps_avoid schema rest s1 outs' s' hrest a0 hrec j' opj aj hopsj houtsj hd he.symm
    | succ i =>
      obtain ⟨j', rfl⟩ : ∃ j', j = j' + 1 := ⟨j - 1, by omega⟩
      simp only [List.getElem?_cons_succ] at hopsi hopsj houtsi houtsj
      exact ih s1 outs' s' hrest (runOp_inv schema s op a0 s1 hop hinv) i j' opi opj ai aj
        (by omega) hopsi hopsj houtsi houtsj hdir

/-- C1: the claim states that alias allocation for newly created join nodes
in `integrate_chain` tries `ideal_1`, `ideal_2`, ... in increasing order and
never fails.  The code contradicts this: the closure's `suffix_index` is
initialized to `1` and never incremented (source line 109), so once both
`x` and `x_1` are taken, the loop probes the same candidate `x_1` at every
iteration and never terminates — the first conjunct evaluates the source
loop at that failing input for every fuel, and the second shows the whole
chain integration diverging where the spec promises the allocation of
`x_2`.  (`Scope::get_alias` nearby, source line 138, does increment, which
is what both the spec and the claim describe.) -/
theorem claim_C1_code_bug :
    (∀ fuel, chainAliasLoopFuel ["x_1", "x"] "x" fuel = none) ∧
    Scope.join_chain_to_one xSchema xScope { first := exLink, rest := [] } = none := by
  constructor
  · exact chainAliasLoopFuel_none ["x_1", "x"] "x" (by decide)
  · rfl

/-- C3: `get_alias` returns `ideal` itself when unused, otherwise `ideal_k`
for the smallest `k ≥ 1` whose candidate is unused, and in both cases the
returned alias is recorded in the used-alias set. -/
theorem claim_C3 (s : Scope) (ideal : String) :
    (ideal ∉ s.aliases → (Scope.get_alias s ideal).1 = ideal) ∧
    (ideal ∈ s.aliases → ∃ k, 1 ≤ k ∧
      (Scope.get_alias s ideal).1 = ideal ++ "_" ++ Nat.repr k ∧
      ideal ++ "_" ++ Nat.repr k ∉ s.aliases ∧
      (∀ i, 1 ≤ i → i < k → ideal ++ "_" ++ Nat.repr i ∈ s.aliases)) ∧
    (Scope.get_alias s ideal).2.aliases = (Scope.get_alias s ideal).1 :: s.aliases := by
  obtain ⟨j, hfree, hprev, heq⟩ := get_alias_spec s ideal
  refine ⟨?_, ?_, ?_⟩
  · intro hnot
    have hj : j = 0 := by
      by_contra hj0
      exact hnot (by simpa [aliasCandidate] using hprev 0 (by omega))
    rw [heq, hj]
    simp [aliasCandidate]
  · intro hmem
    have hj : j ≠ 0 := by
      intro hj0
      rw [hj0] at hfree
      simp [aliasCandidate] at hfree
      exact hfree hmem
    refine ⟨j, by omega, ?_, ?_, ?_⟩
    · rw [heq]
      simp [aliasCandidate, hj]
    · simpa [aliasCandidate, hj] using hfree
    · intro i h1 hij
      have := hprev i hij
      simpa [aliasCandidate, show i ≠ 0 by omega] using this
  · rw [heq]

/-- Witness for C3 at concrete inputs: with no alias used, ideal `customer`
is returned as-is; with `x` and `x_1` used, the smallest free suffix is
returned. -/
theorem claim_C3_witness :
    ("customer" ∉ exScope.aliases ∧ (Scope.get_alias exScope "customer").1 = "customer") ∧
    ("x" ∈ xScope.aliases ∧ ∃ k, 1 ≤ k ∧
      (Scope.get_alias xScope "x").1 = "x" ++ "_" ++ Nat.repr k ∧
      "x" ++ "_" ++ Nat.repr k ∉ xScope.aliases ∧
      (∀ i, 1 ≤ i → i < k → "x" ++ "_" ++ Nat.repr i ∈ xScope.aliases)) := by
  refine ⟨⟨by decide, (claim_C3 exScope "customer").1 (by decide)⟩,
    ⟨by decide, (claim_C3 xScope "x").2.1 (by decide)⟩⟩

/-- C4: join merge idempotence — integrating the same to-one chain a second
time returns the same alias and leaves the scope (join tree, alias set, and
all other state) exactly as it was, so no node is duplicated at any level
of the path.  The tree walk is modelled from the spec (section 4.2), since
`join_tree.rs` is outside the visible source. -/
theorem claim_C4 (schema : Schema) (s : Scope) (chain : Chain LinkToOne) (a : String) (s1 : Scope)
    (h : Scope.join_chain_to_one schema s chain = some (a, s1)) :
    Scope.join_chain_to_one schema s1 chain = some (a, s1) := by
  simp only [Scope.join_chain_to_one] at h ⊢
  obtain ⟨t', u', hrec, rfl⟩ := scope_integrate_some schema s (some chain) none a s1 h
  have htwice := integrate_chain_twice _ _ _ _ _ _ _ hrec u'
  simp only [Scope.integrate_chain]
  rw [htwice]
  rfl

/-- Witness for C4: after integrating `orders → customer` once, the second
integration returns `customer` again and changes nothing. -/
theorem claim_C4_witness :
    Scope.join_chain_to_one exSchema
        { base_table := ordersTable, indentation_level := 0
          join_tree := .node "orders" [(exLink, .node "customer" [] none)] none
          aliases := ["customer"], cte_naming_index := 0 } exChain
      = some ("customer",
        { base_table := ordersTable, indentation_level := 0
          join_tree := .node "orders" [(exLink, .node "customer" [] none)] none
          aliases := ["customer"], cte_naming_index := 0 }) :=
  claim_C4 exSchema exScope exChain "customer"
    { base_table := ordersTable, indentation_level := 0
      join_tree := .node "orders" [(exLink, .node "customer" [] none)] none
      aliases := ["customer"], cte_naming_index := 0 } rfl

/-- Counterexample to C2 as stated: integrating the same to-one chain twice
is a sequence of two alias-producing calls whose two returned aliases are
equal (`customer` both times, per the merge-idempotence design), so the
returned aliases of a sequence of `get_alias`/chain-integration calls are
not always pairwise distinct. -/
theorem claim_C2_counterexample :
    ∃ outs sfin, runOps exSchema exScope [.joinToOne exChain, .joinToOne exChain]
        = some (outs, sfin) ∧
      outs[0]? = some "customer" ∧ outs[1]? = some "customer" := by
  exact ⟨["customer", "customer"], _, rfl, rfl, rfl⟩

/-- C2 (amended): in any sequence of alias-producing calls within one Scope
(starting from a state whose tree aliases are all recorded, e.g. a fresh
one), every returned alias is recorded in the Scope's used-alias set, and
the returned aliases are pairwise distinct whenever at least one of the two
calls is a direct allocation (`get_alias` or a CTE alias); only two chain
integrations may return one shared alias, namely when they resolve to the
same join node. -/
theorem claim_C2 (schema : Schema) (s : Scope) (ops : List AliasOp) (outs : List String)
    (sfin : Scope) (hinv : ScopeInv s) (h : runOps schema s ops = some (outs, sfin)) :
    (∀ a, a ∈ outs → a ∈ sfin.aliases) ∧
    (∀ (i j : Nat) (opi opj : AliasOp) (ai aj : String), i < j →
      ops[i]? = some opi → ops[j]? = some opj →
      outs[i]? = some ai → outs[j]? = some aj →
      (opi.isDirect = true ∨ opj.isDirect = true) → ai ≠ aj) := by
  exact ⟨runOps_recorded schema ops s outs sfin h hinv,
    runOps_pairwise schema ops s outs sfin h hinv⟩

/-- Witness for C2 (amended) on a concrete run mixing all three kinds of
call: all three returned aliases are recorded, and the direct allocations
are distinct from everything else. -/
theorem claim_C2_witness :
    ∃ outs sfin,
      runOps exSchema exScope [.getAlias "customer", .getCte, .joinToOne exChain]
          = some (outs, sfin) ∧
        (∀ a, a ∈ outs → a ∈ sfin.aliases) ∧
        outs[0]? = some "customer" ∧ outs[1]? = some "cte0" ∧ outs[2]? = some "customer_1" := by
  refine ⟨["customer", "cte0", "customer_1"], _, rfl, ?_, rfl, rfl, rfl⟩
  exact (claim_C2 exSchema exScope [.getAlias "customer", .getCte, .joinToOne exChain]
    ["customer", "cte0", "customer_1"] _
    (fun a ha => absurd ha (by simp [exScope, JoinTree.new, JoinTree.dependents, depsAliases]))
    rfl).1

/-- C5: every CTE alias is the fixed prefix followed by a counter value,
the counter strictly increases on every probe (ending one past the
successful index, with every skipped candidate having been a collision),
the returned alias is fresh and recorded in the same used-alias set as
table aliases, and consequently a CTE alias returned during a run never
equals the alias returned by any other call of the same Scope. -/
theorem claim_C5 :
    (∀ s : Scope, ∃ j, s.cte_naming_index ≤ j ∧
      (Scope.get_cte_alias s).1 = CTE_ALIAS_PREFIX ++ Nat.repr j ∧
      (Scope.get_cte_alias s).2.cte_naming_index = j + 1 ∧
      (∀ i, s.cte_naming_index ≤ i → i < j → CTE_ALIAS_PREFIX ++ Nat.repr i ∈ s.aliases) ∧
      (Scope.get_cte_alias s).1 ∉ s.aliases ∧
      (Scope.get_cte_alias s).2.aliases = (Scope.get_cte_alias s).1 :: s.aliases) ∧
    (∀ (schema : Schema) (s : Scope) (ops : List AliasOp) (outs : List String) (sfin : Scope),
      runOps schema s ops = some (outs, sfin) → ScopeInv s →
      ∀ (i j : Nat) (opj : AliasOp) (ai aj : String), i ≠ j →
        ops[i]? = some .getCte → ops[j]? = some opj →
        outs[i]? = some ai → outs[j]? = some aj → ai ≠ aj) := by
  constructor
  · intro s
    obtain ⟨j, hle, hfree, hprev, heq⟩ := get_cte_alias_spec s
    refine ⟨j, hle, ?_, ?_, ?_, ?_, ?_⟩
    · rw [heq]
      rfl
    · rw [heq]
    · intro i h1 h2
      exact hprev i h1 h2
    · rw [heq]
      exact hfree
    · rw [heq]
  · intro schema s ops outs sfin h hinv i j opj ai aj hij hopsi hopsj houtsi houtsj
    rcases Nat.lt_or_ge i j with hlt | hge
    · exact runOps_pairwise schema ops s outs sfin h hinv i j _ opj ai aj hlt hopsi hopsj
        houtsi houtsj (Or.inl rfl)
    · have hlt : j < i := by omega
      intro he
      exact runOps_pairwise schema ops s outs sfin h hinv j i opj _ aj ai hlt hopsj hopsi
        houtsj houtsi (Or.inr rfl) he.symm

/-- Witness for C5: a scope that already used `cte0` and `cte1` allocates
`cte2` with the counter ending at 3; and in a concrete run the CTE alias
`cte0` differs from the `get_alias` result `customer`. -/
theorem claim_C5_witness :
    (∃ j, (0 : Nat) ≤ j ∧
      (Scope.get_cte_alias { exScope with aliases := ["cte0", "cte1"] }).1
        = CTE_ALIAS_PREFIX ++ Nat.repr j ∧
      (Scope.get_cte_alias { exScope with aliases := ["cte0", "cte1"] }).2.cte_naming_index
        = j + 1 ∧
      (∀ i, (0 : Nat) ≤ i → i < j →
        CTE_ALIAS_PREFIX ++ Nat.repr i ∈ ({ exScope with aliases := ["cte0", "cte1"] } : Scope).aliases) ∧
      (Scope.get_cte_alias { exScope with aliases := ["cte0", "cte1"] }).1 ∉
        ({ exScope with aliases := ["cte0", "cte1"] } : Scope).aliases ∧
      (Scope.get_cte_alias { exScope with aliases := ["cte0", "cte1"] }).2.aliases
        = (Scope.get_cte_alias { exScope with aliases := ["cte0", "cte1"] }).1
            :: ({ exScope with aliases := ["cte0", "cte1"] } : Scope).aliases) ∧
    ("cte0" : String) ≠ "customer" := by
  constructor
  · exact claim_C5.1 { exScope with aliases := ["cte0", "cte1"] }
  · exact claim_C5.2 exSchema exScope [.getAlias "customer", .getCte]
      ["customer", "cte0"] _ rfl
      (fun a ha => absurd ha (by simp [exScope, JoinTree.new, JoinTree.dependents, depsAliases]))
      1 0 (.getAlias "customer") "cte0" "customer" (by decide) rfl rfl rfl rfl

/-- C6: indentation balance — for any computation `f` that leaves the
indentation level as it finds it, running `f` through `indented` restores
the level on every exit path, including when `f`'s result is an error
value; while `f` runs, the level is the caller's plus one.  The premise on
`f` is what the source guarantees for every computation expressible against
the Scope: `indentation_level` is a private field, and (as the remaining
conjuncts show) the public state-mutating operations all preserve it. -/
theorem claim_C6 :
    (∀ {T : Type} (f : Scope → T × Scope) (s : Scope),
      (∀ st, ((f st).2).indentation_level = st.indentation_level) →
      ((Scope.indented f s).2).indentation_level = s.indentation_level ∧
      (Scope.indented f s).1 = (f { s with indentation_level := s.indentation_level + 1 }).1) ∧
    (∀ (s2 : Scope) (i : String),
      (Scope.get_alias s2 i).2.indentation_level = s2.indentation_level) ∧
    (∀ s2 : Scope, (Scope.get_cte_alias s2).2.indentation_level = s2.indentation_level) ∧
    (∀ (schema : Schema) (s2 : Scope) (c : Chain LinkToOne) (a : String) (s3 : Scope),
      Scope.join_chain_to_one schema s2 c = some (a, s3) →
      s3.indentation_level = s2.indentation_level) ∧
    (∀ s2 : Scope, (Scope.take_join_tree s2).2.indentation_level = s2.indentation_level) := by
  refine ⟨?_, ?_, ?_, ?_, fun s2 => rfl⟩
  · intro T f s hf
    constructor
    · simp only [Scope.indented]
      rw [hf { s with indentation_level := s.indentation_level + 1 }]
      simp
    · rfl
  · intro s2 i
    obtain ⟨j, _, _, heq⟩ := get_alias_spec s2 i
    rw [heq]
  · intro s2
    obtain ⟨j, _, _, _, heq⟩ := get_cte_alias_spec s2
    rw [heq]
  · intro schema s2 c a s3 h
    simp only [Scope.join_chain_to_one] at h
    obtain ⟨t', u', _, rfl⟩ := scope_integrate_some schema s2 (some c) none a s3 h
    rfl

/-- Witness for C6 with a failing computation: the error is returned and
the level is balanced. -/
theorem claim_C6_witness :
    ((Scope.indented (fun st => ((Except.error "boom" : Except String Unit), st)) exScope).2).indentation_level
      = exScope.indentation_level ∧
    (Scope.indented (fun st => ((Except.error "boom" : Except String Unit), st)) exScope).1
      = Except.error "boom" :=
  ⟨(claim_C6.1 (fun st => ((Except.error "boom" : Except String Unit), st)) exScope
      (fun _ => rfl)).1, rfl⟩

/-- C7: `spawn` produces a child Scope with an empty alias set, CTE counter
zero, a fresh tree rooted at the child's base table, and indentation one
deeper than the parent; the child is fully determined by the base table and
the parent's indentation level, so alias state never flows between parent
and child in either direction. -/
theorem claim_C7 (s : Scope) (bt : Table) :
    (Scope.spawn s bt).aliases = [] ∧
    (Scope.spawn s bt).cte_naming_index = 0 ∧
    (Scope.spawn s bt).join_tree = JoinTree.new bt.name ∧
    (Scope.spawn s bt).indentation_level = s.indentation_level + 1 ∧
    (Scope.spawn s bt).base_table = bt ∧
    (∀ s2 : Scope, s2.indentation_level = s.indentation_level →
      Scope.spawn s2 bt = Scope.spawn s bt) := by
  refine ⟨rfl, rfl, rfl, rfl, rfl, ?_⟩
  intro s2 h
  simp [Scope.spawn, Scope.get_indentation_level, h]

/-- Witness for C7: a parent with aliases `x`, `x_1` spawns the very same
child as a parent with no aliases at all, and that child starts empty. -/
theorem claim_C7_witness :
    Scope.spawn xScope customersTable = Scope.spawn exScope customersTable ∧
    (Scope.spawn exScope customersTable).aliases = [] :=
  ⟨(claim_C7 exScope customersTable).2.2.2.2.2 xScope rfl,
    (claim_C7 exScope customersTable).1⟩

/-- C8: under schema consistency (every identity the resolver can yield is
present in the table map — otherwise `build` panics, see C10), `build`
returns an error exactly when the base-table name does not resolve, the
error message names the missing table, and on success the scope starts at
indentation 0 with empty alias state, CTE counter 0, and a tree rooted at
the resolved table's name. -/
theorem claim_C8 (options : Options) (schema : Schema) (name : String)
    (hcons : ∀ id, options.resolve_identifier schema.table_lookup name = some id →
      ∃ t, lookupNat schema.tables id = some t) :
    ((∃ e, Scope.build options schema name = .err e) ↔
      options.resolve_identifier schema.table_lookup name = none) ∧
    (options.resolve_identifier schema.table_lookup name = none →
      Scope.build options schema name = .err ("Base table `" ++ name ++ "` does not exist.")) ∧
    (∀ st, Scope.build options schema name = .ok st →
      st.indentation_level = 0 ∧ st.aliases = [] ∧ st.cte_naming_index = 0 ∧
      ∃ id t, options.resolve_identifier schema.table_lookup name = some id ∧
        lookupNat schema.tables id = some t ∧ st.base_table = t ∧
        st.join_tree = JoinTree.new t.name) := by
  cases hres : options.resolve_identifier schema.table_lookup name with
  | none =>
    have hbuild : Scope.build options schema name
        = .err ("Base table `" ++ name ++ "` does not exist.") := by
      simp only [Scope.build, get_table_by_name, hres]
    refine ⟨⟨fun _ => rfl, fun _ => ⟨_, hbuild⟩⟩, fun _ => hbuild, ?_⟩
    intro st h
    rw [hbuild] at h
    cases h
  | some id =>
    obtain ⟨t, ht⟩ := hcons id hres
    have hbuild : Scope.build options schema name
        = .ok { base_table := t, indentation_level := 0, join_tree := JoinTree.new t.name,
                aliases := [], cte_naming_index := 0 } := by
      simp only [Scope.build, get_table_by_name, hres, ht]
    refine ⟨⟨?_, ?_⟩, ?_, ?_⟩
    · rintro ⟨e, he⟩
      rw [hbuild] at he
      cases he
    · intro h
      cases h
    · intro h
      cases h
    · intro st h
      rw [hbuild] at h
      cases h
      exact ⟨rfl, rfl, rfl, id, t, rfl, ht, rfl, rfl⟩

/-- Witness for C8: a missing base table yields exactly the message naming
it; an existing one yields a fresh scope over that table. -/
theorem claim_C8_witness :
    Scope.build exOptions exSchema "nope" = .err ("Base table `nope` does not exist.") ∧
    ∀ st, Scope.build exOptions exSchema "orders" = .ok st →
      st.aliases = [] ∧ st.base_table = ordersTable := by
  constructor
  · exact (claim_C8 exOptions exSchema "nope"
      (fun id h => by simp [exOptions, lookupStr, exSchema] at h)).2.1 rfl
  · intro st h
    have hw := (claim_C8 exOptions exSchema "orders"
      (fun id h => by
        simp only [exOptions, exSchema, lookupStr] at h
        split at h
        · exact ⟨ordersTable, by simp_all [lookupNat, exSchema]⟩
        · simp_all [lookupStr])).2.2 st h
    obtain ⟨_, ha, _, id, t, hres, hlook, hbt, _⟩ := hw
    refine ⟨ha, ?_⟩
    simp only [exOptions, exSchema, lookupStr] at hres
    split at hres
    · obtain rfl := Option.some.injEq .. ▸ hres
      simp only [exSchema, lookupNat] at hlook
      obtain rfl := Option.some.injEq .. ▸ hlook
      exact hbt
    · simp_all [lookupStr]

/-- C9: provided the chain's starting table and column resolve (otherwise
the operation panics, see C10), `join_chain_to_many` returns an error
exactly when the path-conversion collaborator does, propagating it
verbatim; on success the returned value expression references the freshly
allocated CTE alias paired with the conversion's value alias, carries
exactly the leftover compositions, and the scope results from integrating a
CTE whose join-back column is the chain's starting column name. -/
theorem claim_C9 (schema : Schema) (bcs : BuildCteSelect) (s : Scope)
    (head : Option (Chain LinkToOne)) (chain : Chain FilteredLink)
    (fcn : Option String) (comps : List CompositionOp) (purpose : CtePurpose)
    (st : Table) (sc : Column)
    (htbl : lookupNat schema.tables chain.first.start.table_id = some st)
    (hcol : lookupNat st.columns chain.first.start.column_id = some sc) :
    (∀ e, Scope.join_chain_to_many schema bcs s head chain fcn comps purpose = .err e ↔
      bcs chain fcn comps s purpose = .error e) ∧
    (∀ expr s3, Scope.join_chain_to_many schema bcs s head chain fcn comps purpose
        = .ok (expr, s3) →
      ∃ v s1, bcs chain fcn comps s purpose = .ok (v, s1) ∧
        expr.base = .TableColumnReference (Scope.get_cte_alias s1).1 v.value_alias ∧
        expr.compositions = v.compositions ∧
        ∃ a2, Scope.integrate_chain schema (Scope.get_cte_alias s1).2 head
          (some { select := v.select, alia := (Scope.get_cte_alias s1).1,
                  purpose := purpose, join_column_name := sc.name })
          = some (a2, s3)) := by
  cases hbcs : bcs chain fcn comps s purpose with
  | error e0 =>
    have hrun : Scope.join_chain_to_many schema bcs s head chain fcn comps purpose = .err e0 := by
      simp only [Scope.join_chain_to_many, htbl, hcol, hbcs]
    refine ⟨?_, ?_⟩
    · intro e
      rw [hrun]
      constructor
      · intro h
        cases h
        rfl
      · intro h
        cases h
        rfl
    · intro expr s3 h
      rw [hrun] at h
      cases h
  | ok r =>
    obtain ⟨v, s1⟩ := r
    cases hint : Scope.integrate_chain schema (Scope.get_cte_alias s1).2 head
        (some { select := v.select, alia := (Scope.get_cte_alias s1).1,
                purpose := purpose, join_column_name := sc.name }) with
    | none =>
      have hrun : Scope.join_chain_to_many schema bcs s head chain fcn comps purpose
          = .diverged := by
        simp only [Scope.join_chain_to_many, htbl, hcol, hbcs]
        rw [hint]
      refine ⟨?_, ?_⟩
      · intro e
        rw [hrun]
        constructor
        · intro h
          cases h
        · intro h
          cases h
      · intro expr s3 h
        rw [hrun] at h
        cases h
    | some r2 =>
      obtain ⟨a2, s3'⟩ := r2
      have hrun : Scope.join_chain_to_many schema bcs s head chain fcn comps purpose
          = .ok ({ base := .TableColumnReference (Scope.get_cte_alias s1).1 v.value_alias,
                   compositions := v.compositions }, s3') := by
        simp only [Scope.join_chain_to_many, htbl, hcol, hbcs]
        rw [hint]
      refine ⟨?_, ?_⟩
      · intro e
        rw [hrun]
        constructor
        · intro h
          cases h
        · intro h
          cases h
      · intro expr s3 h
        rw [hrun] at h
        cases h
        exact ⟨v, s1, rfl, rfl, rfl, a2, hint⟩

/-- Witness for C9: the error of a failing path conversion is propagated
verbatim on a concrete schema where the starting table and column exist. -/
theorem claim_C9_witness :
    Scope.join_chain_to_many exSchema exBcsErr exScope none exFilteredChain none [] { id := 0 }
      = .err "unsupported composition" :=
  ((claim_C9 exSchema exBcsErr exScope none exFilteredChain none [] { id := 0 }
      ordersTable { id := 0, name := "id" } rfl rfl).1
    "unsupported composition").mpr rfl

/-- C10: the panic surface of the public interface.  `build` panics exactly
when the resolver yields a table identity missing from the table map, and
`join_chain_to_many` panics exactly when the chain's starting table or
starting column identity is missing from the schema's maps; under these
schema-consistency preconditions neither panics (the remaining operations
are total functions of the embedded state and have no panic branch at
all). -/
theorem claim_C10 :
    (∀ (options : Options) (schema : Schema) (name : String) (id : Nat),
      options.resolve_identifier schema.table_lookup name = some id →
      lookupNat schema.tables id = none →
      Scope.build options schema name = .panicked) ∧
    (∀ (options : Options) (schema : Schema) (name : String),
      (∀ id, options.resolve_identifier schema.table_lookup name = some id →
        (lookupNat schema.tables id).isSome) →
      Scope.build options schema name ≠ .panicked) ∧
    (∀ (schema : Schema) (bcs : BuildCteSelect) (s : Scope) (head : Option (Chain LinkToOne))
      (chain : Chain FilteredLink) (fcn : Option String) (comps : List CompositionOp)
      (purpose : CtePurpose),
      lookupNat schema.tables chain.first.start.table_id = none →
      Scope.join_chain_to_many schema bcs s head chain fcn comps purpose = .panicked) ∧
    (∀ (schema : Schema) (bcs : BuildCteSelect) (s : Scope) (head : Option (Chain LinkToOne))
      (chain : Chain FilteredLink) (fcn : Option String) (comps : List CompositionOp)
      (purpose : CtePurpose) (st : Table),
      lookupNat schema.tables chain.first.start.table_id = some st →
      lookupNat st.columns chain.first.start.column_id = none →
      Scope.join_chain_to_many schema bcs s head chain fcn comps purpose = .panicked) ∧
    (∀ (schema : Schema) (bcs : BuildCteSelect) (s : Scope) (head : Option (Chain LinkToOne))
      (chain : Chain FilteredLink) (fcn : Option String) (comps : List CompositionOp)
      (purpose : CtePurpose) (st : Table) (sc : Column),
      lookupNat schema.tables chain.first.start.table_id = some st →
      lookupNat st.columns chain.first.start.column_id = some sc →
      Scope.join_chain_to_many schema bcs s head chain fcn comps purpose ≠ .panicked) := by
  refine ⟨?_, ?_, ?_, ?_, ?_⟩
  · intro options schema name id hres hmiss
    simp only [Scope.build, get_table_by_name, hres, hmiss]
  · intro options schema name hcons
    cases hres : options.resolve_identifier schema.table_lookup name with
    | none =>
      simp only [Scope.build, get_table_by_name, hres]
      intro h
      cases h
    | some id =>
      have := hcons id hres
      cases hmiss : lookupNat schema.tables id with
      | none => rw [hmiss] at this; cases this
      | some t =>
        simp only [Scope.build, get_table_by_name, hres, hmiss]
        intro h
        cases h
  · intro schema bcs s head chain fcn comps purpose hmiss
    simp only [Scope.join_chain_to_many, hmiss]
  · intro schema bcs s head chain fcn comps purpose st htbl hmiss
    simp only [Scope.join_chain_to_many, htbl, hmiss]
  · intro schema bcs s head chain fcn comps purpose st sc htbl hcol
    cases hbcs : bcs chain fcn comps s purpose with
    | error e =>
      simp only [Scope.join_chain_to_many, htbl, hcol, hbcs]
      intro h
      cases h
    | ok r =>
      obtain ⟨v, s1⟩ := r
      cases hint : Scope.integrate_chain schema (Scope.get_cte_alias s1).2 head
          (some { select := v.select, alia := (Scope.get_cte_alias s1).1,
                  purpose := purpose, join_column_name := sc.name }) with
      | none =>
        simp only [Scope.join_chain_to_many, htbl, hcol, hbcs]
        rw [hint]
        intro h
        cases h
      | some r2 =>
        simp only [Scope.join_chain_to_many, htbl, hcol, hbcs]
        rw [hint]
        intro h
        cases h

/-- Witness for C10: on the concrete schema, building from an existing
table does not panic, and a to-many integration whose starting table and
column exist does not panic either. -/
theorem claim_C10_witness :
    Scope.build exOptions exSchema "orders" ≠ .panicked ∧
    Scope.join_chain_to_many exSchema exBcsOk exScope none exFilteredChain none [] { id := 0 }
      ≠ .panicked := by
  constructor
  · exact claim_C10.2.1 exOptions exSchema "orders"
      (fun id h => by
        simp only [exOptions, exSchema, lookupStr] at h
        split at h
        · obtain rfl := Option.some.injEq .. ▸ h
          rfl
        · simp_all [lookupStr])
  · exact claim_C10.2.2.2.2 exSchema exBcsOk exScope none exFilteredChain none [] { id := 0 }
      ordersTable { id := 0, name := "id" } rfl rfl
